import Mathlib

/-!
Verification development for the `sssp` library (BMSSP single-source
shortest paths).  The C++ sources under `include/sssp/` are shallowly
embedded: `double` weights become exact rationals extended with `+inf`
(`WithTop ℚ`), vertices become their `std::size_t` ids (`Nat`),
`std::vector`/`std::list` become `List`, the `std::map` over block upper
bounds becomes a key-sorted association list, and every `while` loop
becomes structural recursion on an explicit fuel counter (returning
`none` when the fuel is exhausted), so that all definitions compute by
kernel reduction.  `DistState` additionally carries a ghost `writeLog`
recording every write to the tentative-distance array `d̂` as a triple
(vertex, old value, new value); it is pure instrumentation and is read
by no embedded code path.
-/

namespace SSSP

/-- Extended weights: `double` values used by the library, which are
non-negative reals or `+infinity`, modelled exactly as `WithTop ℚ`. -/
abbrev EW := WithTop ℚ

/-- `INFINITE_WEIGHT` from types.hpp. -/
def INFINITE_WEIGHT : EW := ⊤

/-- `compute_k`'s inner loop with fuel: halvings of `n` before reaching
1 (`while (temp > 1) { temp >>= 1; log_n++; }`); fuel `n` always
suffices since the argument strictly decreases. -/
def floorLog2Aux : Nat → Nat → Nat
  | 0, _ => 0
  | fuel + 1, n => if n ≤ 1 then 0 else floorLog2Aux fuel (n / 2) + 1

/-- Number of times `n` can be halved before reaching 1. -/
def floorLog2 (n : Nat) : Nat := floorLog2Aux n n

/-- `compute_k` from types.hpp: `k = 2^(⌊log₂ n⌋ / 3)`, and 1 for `n ≤ 1`. -/
def compute_k (n : Nat) : Nat :=
  if n ≤ 1 then 1 else 2 ^ (floorLog2 n / 3)

/-- `compute_t` from types.hpp: `t = 2^((2·⌊log₂ n⌋) / 3)`, and 1 for `n ≤ 1`. -/
def compute_t (n : Nat) : Nat :=
  if n ≤ 1 then 1 else 2 ^ ((2 * floorLog2 n) / 3)

/-- Shared solver state from types.hpp: tentative distances `d̂` and
predecessors, both indexed by vertex id.  The `INVALID_VERTEX` sentinel
in `pred` is modelled by `none`.  `writeLog` is ghost instrumentation:
each `set` prepends `(v, old, new)`. -/
structure DistState where
  dist : List EW
  pred : List (Option Nat)
  writeLog : List (Nat × EW × EW)
deriving Repr, DecidableEq

namespace DistState

/-- `DistState::init`. -/
def init (n : Nat) : DistState :=
  ⟨List.replicate n ⊤, List.replicate n none, []⟩

/-- `DistState::get`.  Out-of-range reads (which the C++ never performs)
default to `+∞`. -/
def get (s : DistState) (v : Nat) : EW := s.dist.getD v ⊤

/-- `DistState::set`, with the write recorded in the ghost log. -/
def set (s : DistState) (v : Nat) (w : EW) : DistState :=
  ⟨s.dist.set v w, s.pred, (v, s.get v, w) :: s.writeLog⟩

/-- `DistState::has_pred`. -/
def hasPred (s : DistState) (v : Nat) : Bool := (s.pred.getD v none).isSome

/-- `DistState::get_pred` (as an `Option`, `none` for the sentinel). -/
def getPred (s : DistState) (v : Nat) : Option Nat := s.pred.getD v none

/-- `DistState::set_pred`. -/
def setPred (s : DistState) (v : Nat) (p : Nat) : DistState :=
  ⟨s.dist, s.pred.set v (some p), s.writeLog⟩

end DistState

/-- A directed edge (edge.hpp): endpoints by id plus a rational weight.
The edge id assigned by `Graph::add_edge` is not observable by the
solver and is omitted. -/
structure Edge where
  src : Nat
  dst : Nat
  w : ℚ
deriving Repr, DecidableEq

/-- The graph (graph.hpp): vertex set and edge list in insertion order.
`std::unordered_set` iteration order is unspecified in C++; the model
fixes insertion order. -/
structure Graph where
  verts : List Nat
  edges : List Edge
deriving Repr, DecidableEq

namespace Graph

def empty : Graph := ⟨[], []⟩

/-- `Graph::has_vertex`. -/
def hasVertex (g : Graph) (v : Nat) : Bool := g.verts.contains v

/-- `Graph::add_vertex` (no-op when present, as in the source). -/
def addVertex (g : Graph) (v : Nat) : Graph :=
  if g.hasVertex v then g else ⟨g.verts ++ [v], g.edges⟩

/-- `Graph::add_edge`: adds both endpoints then the edge.  The `Edge`
constructor throws on a negative weight, so a negative-weight edge
never enters a graph; the model makes such a call a no-op. -/
def addEdge (g : Graph) (s d : Nat) (w : ℚ) : Graph :=
  if w < 0 then g
  else
    let g1 := (g.addVertex s).addVertex d
    ⟨g1.verts, g1.edges ++ [⟨s, d, w⟩]⟩

/-- `Graph::num_vertices`. -/
def numVertices (g : Graph) : Nat := g.verts.length

/-- `Graph::get_outgoing_edges`: the adjacency list of `v`, in edge
insertion order (the order `add_edge` pushed them). -/
def outgoing (g : Graph) (v : Nat) : List Edge :=
  g.edges.filter (fun e => e.src == v)

/-- `Graph::get_k`. -/
def get_k (g : Graph) : Nat := compute_k g.numVertices

/-- `Graph::get_t`. -/
def get_t (g : Graph) : Nat := compute_t g.numVertices

end Graph

/-! ## Binary min-heap (binary_heap.hpp)

The heap array is modelled as the list of its first `size_` entries
(the C++ vector's slack beyond `size_` is never read).  The position
map is an association list from vertex id to position; the C++ stores
`int` positions but never a negative one, so positions are `Nat` and
the `>= 0` half of each validity check is dropped. -/

/-- `BinaryHeap::HeapEntry`.  The default entry has distance `+∞`. -/
structure HeapEntry where
  vertex : Nat
  distance : EW
deriving Repr, DecidableEq

/-- Default-constructed `HeapEntry` (vertex 0, distance `+∞`). -/
def HeapEntry.default : HeapEntry := ⟨0, ⊤⟩

/-- `BinaryHeap` state. -/
structure BinaryHeap where
  heap : List HeapEntry
  posMap : List (Nat × Nat)
deriving Repr, DecidableEq

namespace BinaryHeap

def empty : BinaryHeap := ⟨[], []⟩

/-- Number of live entries (`size_`). -/
def size (h : BinaryHeap) : Nat := h.heap.length

/-- Entry at index `i` (reads are always in range in the source). -/
def entAt (h : BinaryHeap) (i : Nat) : HeapEntry := h.heap.getD i HeapEntry.default

/-- `position_map_.find`. -/
def posFind (m : List (Nat × Nat)) (v : Nat) : Option Nat :=
  match m.find? (fun p => p.1 == v) with
  | some p => some p.2
  | none => none

/-- `position_map_[v] = i` (insert or overwrite). -/
def posSet (m : List (Nat × Nat)) (v i : Nat) : List (Nat × Nat) :=
  match m with
  | [] => [(v, i)]
  | p :: rest => if p.1 == v then (v, i) :: rest else p :: posSet rest v i

/-- `position_map_.erase(v)`. -/
def posErase (m : List (Nat × Nat)) (v : Nat) : List (Nat × Nat) :=
  match m with
  | [] => []
  | p :: rest => if p.1 == v then rest else p :: posErase rest v

/-- `parent(i) = (i-1)/2`. -/
def parentIdx (i : Nat) : Nat := (i - 1) / 2

/-- `HeapEntry::operator<` (compares distances). -/
def entLt (a b : HeapEntry) : Bool := a.distance < b.distance

/-- `swap_entries(i, j)`: update the position map for the two moved
vertices, then swap the array slots. -/
def swapEntries (h : BinaryHeap) (i j : Nat) : BinaryHeap :=
  if i == j then h
  else
    let ei := h.entAt i
    let ej := h.entAt j
    let m1 := posSet h.posMap ei.vertex j
    let m2 := posSet m1 ej.vertex i
    ⟨(h.heap.set i ej).set j ei, m2⟩

/-- `bubble_up`, with fuel; the index strictly decreases, so fuel `i+1`
is always enough and exhaustion is unreachable (at index 0 the guard is
false). -/
def bubbleUpAux : Nat → BinaryHeap → Nat → BinaryHeap
  | 0, h, _ => h
  | fuel + 1, h, i =>
    if 0 < i && entLt (h.entAt i) (h.entAt (parentIdx i)) then
      bubbleUpAux fuel (h.swapEntries i (parentIdx i)) (parentIdx i)
    else h

def bubbleUp (h : BinaryHeap) (i : Nat) : BinaryHeap := bubbleUpAux (i + 1) h i

/-- One step of `bubble_down`: the smallest of node `i` and its
children.  Returns the chosen index. -/
def smallestIdx (h : BinaryHeap) (i : Nat) : Nat :=
  let l := 2 * i + 1
  let r := 2 * i + 2
  let s1 := if l < h.size && entLt (h.entAt l) (h.entAt i) then l else i
  if r < h.size && entLt (h.entAt r) (h.entAt s1) then r else s1

/-- `bubble_down`, with fuel; the index strictly increases while staying
below `size`, so fuel `size + 1` is always enough. -/
def bubbleDownAux : Nat → BinaryHeap → Nat → BinaryHeap
  | 0, h, _ => h
  | fuel + 1, h, i =>
    let s := smallestIdx h i
    if s == i then h
    else bubbleDownAux fuel (h.swapEntries i s) s

def bubbleDown (h : BinaryHeap) (i : Nat) : BinaryHeap :=
  bubbleDownAux (h.size + 1) h i

/-- `decrease_key`. -/
def decreaseKey (h : BinaryHeap) (v : Nat) (nd : EW) : BinaryHeap :=
  match posFind h.posMap v with
  | none => h
  | some p =>
    if p < h.size then
      if nd < (h.entAt p).distance then
        let h1 : BinaryHeap := ⟨h.heap.set p ⟨(h.entAt p).vertex, nd⟩, h.posMap⟩
        h1.bubbleUp p
      else h
    else h

/-- `insert`: decrease-key when the vertex is already present with a
larger key, otherwise append at the end and bubble up. -/
def insert (h : BinaryHeap) (v : Nat) (d : EW) : BinaryHeap :=
  match posFind h.posMap v with
  | some p =>
    if p < h.size then
      if d < (h.entAt p).distance then h.decreaseKey v d else h
    else
      let h1 : BinaryHeap := ⟨h.heap ++ [⟨v, d⟩], posSet h.posMap v h.size⟩
      h1.bubbleUp (h1.size - 1)
  | none =>
    let h1 : BinaryHeap := ⟨h.heap ++ [⟨v, d⟩], posSet h.posMap v h.size⟩
    h1.bubbleUp (h1.size - 1)

/-- `extract_min`: `none` on an empty heap (the C++ throws; BaseCase
never extracts from an empty heap). -/
def extractMin (h : BinaryHeap) : Option ((Nat × EW) × BinaryHeap) :=
  if h.size = 0 then none
  else
    let mn := h.entAt 0
    let lst := h.entAt (h.size - 1)
    let heap1 := (h.heap.set 0 lst).dropLast
    let m1 := posSet h.posMap lst.vertex 0
    let m2 := posErase m1 mn.vertex
    let h1 : BinaryHeap := ⟨heap1, m2⟩
    let h2 := if 0 < h1.size then h1.bubbleDown 0 else h1
    some ((mn.vertex, mn.distance), h2)

end BinaryHeap

/-! ## Block data structure `D` (block_data_structure.hpp)

`D1` holds blocks behind `shared_ptr`s referenced both from the block
list and from the `std::map` on upper bounds; the model gives each
block a numeric id (`nextId` plays the allocator), keeps `D1` as the
list of ids in position order, a store from id to block, and the map as
a key-sorted association list (`std::map`: ordered unique keys,
`operator[]` overwrites, `lower_bound` finds the first key `≥`). -/

/-- A block: value-sorted elements plus an upper bound.  The default
constructor's upper bound is `+∞`. -/
structure Block where
  elements : List (Nat × EW)
  upper_bound : EW
deriving Repr, DecidableEq

/-- `Block::min_value` (`+∞` when empty). -/
def Block.minValue (b : Block) : EW :=
  match b.elements.head? with
  | some p => p.2
  | none => ⊤

/-- The container state. -/
structure BDS where
  M : Nat
  B : EW
  D0 : List Block
  D1 : List Nat
  store : List (Nat × Block)
  d1ub : List (EW × Nat)
  keyMin : List (Nat × EW)
  total : Nat
  nextId : Nat
deriving Repr, DecidableEq

namespace BDS

/-- Read a block by id (ids in `D1` always resolve). -/
def storeGet (st : List (Nat × Block)) (bid : Nat) : Block :=
  match st.find? (fun p => p.1 == bid) with
  | some p => p.2
  | none => ⟨[], ⊤⟩

/-- Write a block by id (insert or overwrite). -/
def storeSet (st : List (Nat × Block)) (bid : Nat) (b : Block) : List (Nat × Block) :=
  match st with
  | [] => [(bid, b)]
  | p :: rest => if p.1 == bid then (bid, b) :: rest else p :: storeSet rest bid b

/-- `d1_upper_bounds_.lower_bound(value)`: first key `≥ value`. -/
def mapLowerBound (m : List (EW × Nat)) (value : EW) : Option Nat :=
  match m.find? (fun p => value ≤ p.1) with
  | some p => some p.2
  | none => none

/-- `d1_upper_bounds_.erase(key)`. -/
def mapErase (m : List (EW × Nat)) (key : EW) : List (EW × Nat) :=
  match m with
  | [] => []
  | p :: rest => if p.1 == key then rest else p :: mapErase rest key

/-- `d1_upper_bounds_[key] = bid` (sorted insert, overwrite on equal key). -/
def mapSet (m : List (EW × Nat)) (key : EW) (bid : Nat) : List (EW × Nat) :=
  match m with
  | [] => [(key, bid)]
  | p :: rest =>
    if key < p.1 then (key, bid) :: p :: rest
    else if key == p.1 then (key, bid) :: rest
    else p :: mapSet rest key bid

/-- `key_min_values_.find`. -/
def keyFind (m : List (Nat × EW)) (k : Nat) : Option EW :=
  match m.find? (fun p => p.1 == k) with
  | some p => some p.2
  | none => none

/-- Overwrite an existing key's value (used by `update_key_tracking`). -/
def keySet (m : List (Nat × EW)) (k : Nat) (v : EW) : List (Nat × EW) :=
  match m with
  | [] => [(k, v)]
  | p :: rest => if p.1 == k then (k, v) :: rest else p :: keySet rest k v

/-- `key_min_values_.erase(k)`. -/
def keyErase (m : List (Nat × EW)) (k : Nat) : List (Nat × EW) :=
  match m with
  | [] => []
  | p :: rest => if p.1 == k then rest else p :: keyErase rest k

/-- `update_key_tracking`: `true` (with the map updated) iff `v` is a
new minimum for `k`. -/
def updateKeyTracking (m : List (Nat × EW)) (k : Nat) (v : EW) : Bool × List (Nat × EW) :=
  match keyFind m k with
  | none => (true, keySet m k v)
  | some cur => if v < cur then (true, keySet m k v) else (false, m)

/-- `Initialize(M, B)`: clamp `M` to at least 1; one empty `D1` block
with upper bound `B`. -/
def Initialize (M : Nat) (B : EW) : BDS :=
  { M := max 1 M
    B := B
    D0 := []
    D1 := [0]
    store := [(0, ⟨[], B⟩)]
    d1ub := [(B, 0)]
    keyMin := []
    total := 0
    nextId := 1 }

/-- `empty()`. -/
def isEmpty (s : BDS) : Bool := s.total == 0

/-- Remove the first occurrence of `key` from a block's element list;
also reports whether something was removed. -/
def eraseKeyOcc : List (Nat × EW) → Nat → List (Nat × EW) × Bool
  | [], _ => ([], false)
  | p :: rest, k =>
    if p.1 == k then (rest, true)
    else
      let r := eraseKeyOcc rest k
      (p :: r.1, r.2)

/-- Insert `(k, v)` before the first element whose value is `≥ v`
(`std::lower_bound` + `insert`). -/
def insertByValue : List (Nat × EW) → Nat → EW → List (Nat × EW)
  | [], k, v => [(k, v)]
  | p :: rest, k, v =>
    if p.2 < v then p :: insertByValue rest k v else (k, v) :: p :: rest

/-- Insert a new block id immediately after an existing one in `D1`. -/
def insertAfter : List Nat → Nat → Nat → List Nat
  | [], _, nid => [nid]
  | x :: rest, bid, nid =>
    if x == bid then x :: nid :: rest else x :: insertAfter rest bid nid

/-- `split_block`: halve at the median, the lower half keeps the
position with upper bound = minimum of the upper half, the upper half
is a new block with the old upper bound, and the BST is updated by
erase-then-assign (on equal new bounds the second assignment
overwrites the first, exactly as `operator[]` does). -/
def splitBlock (s : BDS) (bid : Nat) : BDS :=
  let b := storeGet s.store bid
  if b.elements.length ≤ s.M then s
  else
    let mid := b.elements.length / 2
    let lowerEls := b.elements.take mid
    let upperEls := b.elements.drop mid
    let oldUb := b.upper_bound
    let newBlock : Block := ⟨upperEls, oldUb⟩
    let lowerUb := newBlock.minValue
    let nid := s.nextId
    let st1 := storeSet s.store bid ⟨lowerEls, lowerUb⟩
    let st2 := storeSet st1 nid newBlock
    let m1 := mapErase s.d1ub oldUb
    let m2 := mapSet m1 lowerUb bid
    let m3 := mapSet m2 oldUb nid
    { s with
      store := st2
      D1 := insertAfter s.D1 bid nid
      d1ub := m3
      nextId := nid + 1 }

/-- `Insert(key, value)`. -/
def Insert (s : BDS) (key : Nat) (value : EW) : BDS :=
  if ¬ value < s.B then s
  else
    let tr := updateKeyTracking s.keyMin key value
    if !tr.1 then s
    else
      match mapLowerBound s.d1ub value with
      | none => { s with keyMin := tr.2 }
      | some bid =>
        let b := storeGet s.store bid
        let er := eraseKeyOcc b.elements key
        let total1 := if er.2 then s.total - 1 else s.total
        let els2 := insertByValue er.1 key value
        let s1 := { s with
          keyMin := tr.2
          store := storeSet s.store bid ⟨els2, b.upper_bound⟩
          total := total1 + 1 }
        if els2.length > s.M then splitBlock s1 bid else s1

/-- `min_per_key` accumulation in `BatchPrepend` (values `≥ B` are
skipped; per key the minimum is kept).  The C++ iterates an
`unordered_map` in unspecified order afterwards; the model fixes
first-occurrence key order. -/
def mpkAdd (m : List (Nat × EW)) (k : Nat) (v : EW) : List (Nat × EW) :=
  match keyFind m k with
  | none => m ++ [(k, v)]
  | some cur => if v < cur then keySet m k v else m

/-- Value-sorted insertion (insertion sort step); `std::sort`'s order on
equal values is unspecified, the model keeps earlier entries first. -/
def insValueSorted (p : Nat × EW) : List (Nat × EW) → List (Nat × EW)
  | [] => [p]
  | q :: rest => if q.2 ≤ p.2 then q :: insValueSorted p rest else p :: q :: rest

def sortByValue (l : List (Nat × EW)) : List (Nat × EW) :=
  l.foldl (fun acc p => insValueSorted p acc) []

/-- Split a sorted list into successive chunks of size `M`. -/
def chunksOf (M : Nat) (l : List (Nat × EW)) : List (List (Nat × EW)) :=
  let step := l.foldl
    (fun (acc : List (List (Nat × EW)) × List (Nat × EW)) p =>
      let cur := acc.2 ++ [p]
      if cur.length == M then (acc.1 ++ [cur], []) else (acc.1, cur))
    ([], [])
  if step.2.isEmpty then step.1 else step.1 ++ [step.2]

/-- `BatchPrepend(pairs)`. -/
def BatchPrepend (s : BDS) (pairs : List (Nat × EW)) : BDS :=
  if pairs.isEmpty then s
  else
    let mpk := pairs.foldl
      (fun m p => if p.2 < s.B then mpkAdd m p.1 p.2 else m) []
    let kept := mpk.foldl
      (fun (acc : List (Nat × EW) × List (Nat × EW)) p =>
        let tr := updateKeyTracking acc.2 p.1 p.2
        if tr.1 then (acc.1 ++ [p], tr.2) else (acc.1, tr.2))
      ([], s.keyMin)
    let sorted_pairs := kept.1
    let km := kept.2
    if sorted_pairs.isEmpty then { s with keyMin := km }
    else
      let sortedv := sortByValue sorted_pairs
      let blocks := (chunksOf s.M sortedv).map (fun c => (⟨c, ⊤⟩ : Block))
      { s with
        keyMin := km
        D0 := blocks ++ s.D0
        total := s.total + sortedv.length }

/-- The `D0` phase of `Pull`: collect up to `M` entries from the front
blocks; fully consumed blocks are dropped, a partially consumed block
keeps its suffix and (when `M` entries have been reached) supplies the
in-loop boundary. -/
def pullD0 (M : Nat) : List (Nat × EW) → List Block →
    List (Nat × EW) × List Block × Option EW
  | acc, [] => (acc, [], none)
  | acc, b :: rest =>
    if ¬ acc.length < M then (acc, b :: rest, none)
    else
      let toTake := min (M - acc.length) b.elements.length
      let taken := b.elements.take toTake
      if toTake == b.elements.length then pullD0 M (acc ++ taken) rest
      else
        let b' : Block := ⟨b.elements.drop toTake, b.upper_bound⟩
        let acc' := acc ++ taken
        let bnd := if M ≤ acc'.length then some b'.minValue else none
        (acc', b' :: rest, bnd)

/-- The `D1` phase of `Pull`: like the `D0` phase but over block ids;
empty blocks are skipped (and kept), fully consumed blocks are dropped
and their upper bounds collected for BST erasure, a partial block is
updated in the store. -/
def pullD1 (M : Nat) : List (Nat × Block) → List (Nat × EW) → List Nat →
    List (Nat × EW) × List Nat × List EW × Option EW × List (Nat × Block)
  | st, acc, [] => (acc, [], [], none, st)
  | st, acc, bid :: rest =>
    if ¬ acc.length < M then (acc, bid :: rest, [], none, st)
    else
      let b := storeGet st bid
      if b.elements.isEmpty then
        let r := pullD1 M st acc rest
        (r.1, bid :: r.2.1, r.2.2.1, r.2.2.2.1, r.2.2.2.2)
      else
        let toTake := min (M - acc.length) b.elements.length
        let taken := b.elements.take toTake
        if toTake == b.elements.length then
          let r := pullD1 M st (acc ++ taken) rest
          (r.1, r.2.1, b.upper_bound :: r.2.2.1, r.2.2.2.1, r.2.2.2.2)
        else
          let b' : Block := ⟨b.elements.drop toTake, b.upper_bound⟩
          let acc' := acc ++ taken
          let bnd := if M ≤ acc'.length then some b'.minValue else none
          (acc', bid :: rest, [], bnd, storeSet st bid b')

/-- First nonempty `D1` block, in position order. -/
def firstNonemptyD1 (st : List (Nat × Block)) : List Nat → Option Block
  | [] => none
  | bid :: rest =>
    let b := storeGet st bid
    if b.elements.isEmpty then firstNonemptyD1 st rest else some b

/-- Whether `D0`'s front block exists and is nonempty. -/
def d0FrontNonempty (D0 : List Block) : Bool :=
  match D0.head? with
  | some b => !b.elements.isEmpty
  | none => false

/-- `D0`'s front block's minimum (callers guard nonemptiness). -/
def d0FrontMin (D0 : List Block) : EW :=
  match D0.head? with
  | some b => b.minValue
  | none => ⊤

/-- `Pull()`: returns `(S', boundary)` and the new state. -/
def Pull (s : BDS) : (List (Nat × EW) × EW) × BDS :=
  if s.total == 0 then (([], s.B), s)
  else
    let r0 := pullD0 s.M [] s.D0
    let acc0 := r0.1
    let D0' := r0.2.1
    let bnd0 := r0.2.2
    let r1 :=
      if acc0.length < s.M then pullD1 s.M s.store acc0 s.D1
      else (acc0, s.D1, [], none, s.store)
    let result := r1.1
    let D1' := r1.2.1
    let ubsRemoved := r1.2.2.1
    let bnd1 := r1.2.2.2.1
    let store' := r1.2.2.2.2
    let d1ub' := ubsRemoved.foldl mapErase s.d1ub
    let total' := s.total - result.length
    let km' := result.foldl (fun m p => keyErase m p.1) s.keyMin
    let boundary1 : EW := ((bnd0.or bnd1).getD s.B)
    let boundary2 : EW :=
      if result.length < s.M ∧ total' ≠ 0 then
        let nm1 := if d0FrontNonempty D0' then min s.B (d0FrontMin D0') else s.B
        match firstNonemptyD1 store' D1' with
        | some b => min nm1 b.minValue
        | none => nm1
      else if result.length = s.M ∧ boundary1 = s.B then
        if d0FrontNonempty D0' then d0FrontMin D0'
        else
          match firstNonemptyD1 store' D1' with
          | some b => b.minValue
          | none => boundary1
      else boundary1
    ((result, boundary2),
      { s with
        D0 := D0'
        D1 := D1'
        store := store'
        d1ub := d1ub'
        keyMin := km'
        total := total' })

end BDS

/-! ## BaseCase (base_case.hpp) -/

/-- Result of `BaseCase::run` (`B_prime`, the settled list `U`, and the
shared state threaded functionally).  `U` mirrors both `in_U` and
`res.U` of the source: membership is tested before pushing, so the two
always hold the same vertices and `U` is duplicate-free in push order. -/
structure BaseCaseResult where
  B_prime : EW
  U : List Nat
  state : DistState
deriving Repr, DecidableEq

/-- The body of BaseCase's edge-relaxation loop for one edge `e` out of
`u`, where `du` is the extracted key: `alt = du + w`; on `alt ≤ B` and
`alt ≤ d̂[v]` the estimate is lowered when strictly better, the
predecessor is overwritten (also on ties), and `(v, alt)` is inserted
into the heap. -/
def baseRelaxEdge (B : EW) (u : Nat) (du : EW) (acc : DistState × BinaryHeap)
    (e : Edge) : DistState × BinaryHeap :=
  let st := acc.1
  let H := acc.2
  let v := e.dst
  let alt := du + (e.w : ℚ)
  let dv := st.get v
  if alt ≤ B ∧ alt ≤ dv then
    let better := alt < dv
    if better ∨ alt = dv then
      let st1 := if better then st.set v alt else st
      let st2 := st1.setPred v u
      (st2, H.insert v alt)
    else acc
  else acc

/-- BaseCase's extraction loop, with fuel (`none` = fuel exhausted).
Loop head: exit when the heap is empty or `|U| ≥ k+1`; extract the
minimum; break keeping `B' = B` when `du ≥ B`; otherwise add `u` to `U`
unless present and relax its outgoing edges. -/
def baseCaseLoop (G : Graph) (B : EW) (k : Nat) :
    Nat → BinaryHeap → DistState → List Nat → Option (DistState × List Nat)
  | 0, _, _, _ => none
  | fuel + 1, H, st, U =>
    if H.size = 0 ∨ k + 1 ≤ U.length then some (st, U)
    else
      match H.extractMin with
      | none => some (st, U)
      | some ((u, du), H1) =>
        if B ≤ du then some (st, U)
        else
          let U' := if u ∈ U then U else U ++ [u]
          let acc := (G.outgoing u).foldl (baseRelaxEdge B u du) (st, H1)
          baseCaseLoop G B k fuel acc.2 acc.1 U'

/-- `BaseCase::run`.  Returns `none` only on fuel exhaustion. -/
def BaseCase.run (G : Graph) (B : EW) (x : Nat) (st : DistState) (k fuel : Nat) :
    Option BaseCaseResult :=
  if ¬ G.hasVertex x then some ⟨B, [], st⟩
  else
    let st0 := if st.get x = ⊤ then st.set x 0 else st
    let H0 := BinaryHeap.empty.insert x (st0.get x)
    match baseCaseLoop G B k fuel H0 st0 [] with
    | none => none
    | some (st1, U) =>
      let Bp :=
        if k + 1 ≤ U.length then
          match U.getLast? with
          | some ul => st1.get ul
          | none => B
        else B
      some ⟨Bp, U, st1⟩

/-! ## FindPivots

The FindPivots implementation is not part of the sources (only its
caller in bmssp.hpp and its test file exist), so it is modelled from
the specification, §4.3. -/

/-- Local-distance lookup (`ℓ[v]`, default `+∞`). -/
def lGet (l : List (Nat × EW)) (v : Nat) : EW :=
  match l.find? (fun p => p.1 == v) with
  | some p => p.2
  | none => ⊤

/-- Overwrite `ℓ[v]`. -/
def lSet (l : List (Nat × EW)) (v : Nat) (w : EW) : List (Nat × EW) :=
  match l with
  | [] => [(v, w)]
  | p :: rest => if p.1 == v then (v, w) :: rest else p :: lSet rest v w

/-- Parent lookup in the relaxation forest. -/
def parGet (pm : List (Nat × Nat)) (v : Nat) : Option Nat :=
  match pm.find? (fun p => p.1 == v) with
  | some p => some p.2
  | none => none

/-- Overwrite the recorded parent of `v`. -/
def parSet (pm : List (Nat × Nat)) (v u : Nat) : List (Nat × Nat) :=
  match pm with
  | [] => [(v, u)]
  | p :: rest => if p.1 == v then (v, u) :: rest else p :: parSet rest v u

/-- Modelled from the spec: one Bellman-Ford sweep of FindPivots —
relax every outgoing edge of every `u` in the previous wave; an edge
improves when `ℓ[u] + w < B` and `ℓ[u] + w < ℓ[v]`, recording `parent[v]
= u`; newly touched vertices form the next wave. -/
def fpSweep (G : Graph) (B : EW) (Wprev : List Nat) (W : List Nat)
    (l : List (Nat × EW)) (pm : List (Nat × Nat)) :
    List Nat × List (Nat × EW) × List (Nat × Nat) :=
  Wprev.foldl
    (fun (acc : List Nat × List (Nat × EW) × List (Nat × Nat)) u =>
      (G.outgoing u).foldl
        (fun (a : List Nat × List (Nat × EW) × List (Nat × Nat)) e =>
          let alt := lGet a.2.1 u + (e.w : ℚ)
          if alt < B ∧ alt < lGet a.2.1 e.dst then
            let wc := if e.dst ∈ W ∨ e.dst ∈ a.1 then a.1 else a.1 ++ [e.dst]
            (wc, lSet a.2.1 e.dst alt, parSet a.2.2 e.dst u)
          else a)
        acc)
    ([], l, pm)

/-- Modelled from the spec: walk parent pointers (restricted to `W`) up
to the root, with fuel. -/
def fpRootOf (pm : List (Nat × Nat)) (W : List Nat) : Nat → Nat → Nat
  | 0, v => v
  | fuel + 1, v =>
    match parGet pm v with
    | none => v
    | some p => if p ∈ W then fpRootOf pm W fuel p else v

/-- Modelled from the spec: the `k` sweeps of FindPivots, returning
(`W`, `ℓ`, parent map, early-exit flag).  After each sweep the new wave
is unioned into `W`; if `|W| > k·|S|` the procedure stops early. -/
def fpSweeps (G : Graph) (B : EW) (k : Nat) (limit : Nat) :
    Nat → List Nat → List Nat → List (Nat × EW) → List (Nat × Nat) →
    List Nat × List (Nat × EW) × List (Nat × Nat) × Bool
  | 0, _, W, l, pm => (W, l, pm, false)
  | i + 1, Wprev, W, l, pm =>
    let sw := fpSweep G B Wprev W l pm
    let Wcur := sw.1
    let W1 := W ++ Wcur
    if limit < W1.length then (W1, sw.2.1, sw.2.2, true)
    else if Wcur.isEmpty then (W1, sw.2.1, sw.2.2, false)
    else fpSweeps G B k limit i Wcur W1 sw.2.1 sw.2.2

/-- Modelled from the spec: propagate the improved local distances into
the shared state (write only on strict improvement, moving the recorded
parent into `pred`). -/
def fpPropStep (pm : List (Nat × Nat)) (st : DistState) (p : Nat × EW) : DistState :=
  if p.2 < st.get p.1 then
    let st1 := st.set p.1 p.2
    match parGet pm p.1 with
    | some u => st1.setPred p.1 u
    | none => st1
  else st

def fpPropagate (l : List (Nat × EW)) (pm : List (Nat × Nat)) (st : DistState) :
    DistState :=
  l.foldl (fpPropStep pm) st

/-- Modelled from the spec: `FindPivots::execute(G, B, S, k, state)`.
Missing from the sources; built from §4.3: seed `ℓ` from `d̂` on `S`,
run `k` sweeps with early exit at `|W| > k·|S|` (returning `P = S`),
otherwise take as pivots the forest roots whose subtree within `W` has
at least `k` vertices, falling back to `P = S` when none qualifies;
finally propagate improvements into the shared state. -/
def FindPivots.execute (G : Graph) (B : EW) (S : List Nat) (k : Nat)
    (st : DistState) : List Nat × List Nat × DistState :=
  let l0 := S.map (fun v => (v, st.get v))
  let res := fpSweeps G B k (k * S.length) k S S l0 []
  let W := res.1
  let l := res.2.1
  let pm := res.2.2.1
  let early := res.2.2.2
  let st' := fpPropagate l pm st
  if early then (S, W, st')
  else
    let roots := W.filter (fun v =>
      match parGet pm v with
      | none => true
      | some p => decide (p ∉ W))
    let P0 := roots.filter (fun r =>
      k ≤ (W.filter (fun w => fpRootOf pm W (W.length + 1) w == r)).length)
    let P := if P0.isEmpty then S else P0
    (P, W, st')

/-! ## BMSSP (bmssp.hpp) -/

/-- Result of `BMSSP::run`: `B_prime`, the returned set `U` in push
order, the threaded shared state, and — as ghost instrumentation — the
list of the `U` sets returned by this frame's direct recursive
sub-calls, one entry per main-loop iteration. -/
structure BMSSPResult where
  B_prime : EW
  U : List Nat
  state : DistState
  subUs : List (List Nat)
deriving Repr, DecidableEq

/-- The body of BMSSP's edge-relaxation loop for one edge `e` out of a
settled `u`: `alt = d̂[u] + w` (re-read from the current state).  On
`alt < B` and `alt ≤ d̂[v]` the estimate is lowered when strictly
better, the predecessor is overwritten (also on ties), and `(v, alt)`
is inserted into `D`; otherwise, when `current_Bp ≤ alt < Bi`, the
single pair is routed through `BatchPrepend`. -/
def bmsspRelaxEdge (B Bp Bi : EW) (u : Nat)
    (acc : DistState × BDS) (e : Edge) : DistState × BDS :=
  let st := acc.1
  let D := acc.2
  let v := e.dst
  let alt := st.get u + (e.w : ℚ)
  let dv := st.get v
  if alt < B ∧ alt ≤ dv then
    let better := alt < dv
    let st2 :=
      if better ∨ alt = dv then
        let st1 := if better then st.set v alt else st
        st1.setPred v u
      else st
    (st2, D.Insert v alt)
  else if Bp ≤ alt ∧ alt < Bi then (st, D.BatchPrepend [(v, alt)])
  else acc

/-- BMSSP's main loop, with fuel.  `sub` is the recursive call at level
`l-1` (passed in by `BMSSP.run`, which recurses structurally on the
level).  Each iteration pulls, recurses, folds the relaxation over the
returned `U`, and stops on the workload cap `|U| > k·2^(l·t)`. -/
def bmsspLoop (G : Graph) (B : EW) (k l t : Nat)
    (sub : EW → List Nat → DistState → Option BMSSPResult) :
    Nat → BDS → DistState → List Nat → EW → List (List Nat) →
    Option (EW × List Nat × DistState × List (List Nat))
  | 0, _, _, _, _, _ => none
  | fuel + 1, D, st, resU, curBp, log =>
    if D.isEmpty then some (curBp, resU, st, log)
    else
      let pl := D.Pull
      let pulled := pl.1.1
      let Bi := pl.1.2
      let D1 := pl.2
      let Si := pulled.map (fun p => p.1)
      if Si.isEmpty then some (curBp, resU, st, log)
      else
        match sub Bi Si st with
        | none => none
        | some subRes =>
          let curBp' := min curBp subRes.B_prime
          let log' := log ++ [subRes.U]
          let step := subRes.U.foldl
            (fun (a : List Nat × DistState × BDS) u =>
              let resU1 := if u ∈ a.1 then a.1 else a.1 ++ [u]
              let rel := (G.outgoing u).foldl
                (bmsspRelaxEdge B curBp' Bi u) (a.2.1, a.2.2)
              (resU1, rel.1, rel.2))
            (resU, subRes.state, D1)
          let resU' := step.1
          let st' := step.2.1
          let D' := step.2.2
          if k * 2 ^ (l * t) < resU'.length then some (curBp', resU', st', log')
          else bmsspLoop G B k l t sub fuel D' st' resU' curBp' log'

/-- Append the elements of `W` that are not yet in `U` (the
`Uset.insert` / `push_back` epilogue). -/
def unionAppend (U W : List Nat) : List Nat :=
  W.foldl (fun acc w => if w ∈ acc then acc else acc ++ [w]) U

/-- `BMSSP::run(G, l, B, S, state, k, t)`, recursing structurally on
the level; `fuel0` bounds every loop (`none` = fuel exhausted).  An
empty `S` returns `(B, ∅)` before the level test; level 0 delegates to
BaseCase on `S.front()`. -/
def BMSSP.run (G : Graph) (fuel0 : Nat) :
    Nat → EW → List Nat → DistState → Nat → Nat → Option BMSSPResult
  | _, B, [], st, _, _ => some ⟨B, [], st, []⟩
  | 0, B, s0 :: _, st, k, _ =>
    match BaseCase.run G B s0 st k fuel0 with
    | none => none
    | some bc => some ⟨bc.B_prime, bc.U, bc.state, []⟩
  | l + 1, B, s0 :: srest, st, k, t =>
    let S := s0 :: srest
    let Sset := S.foldl (fun acc v => if v ∈ acc then acc else acc ++ [v]) []
    let piv := FindPivots.execute G B Sset k st
    let P := piv.1
    let W := piv.2.1
    let st1 := piv.2.2
    let M := 2 ^ (l * t)
    let D0 := P.foldl
      (fun (D : BDS) p => if st1.get p < B then D.Insert p (st1.get p) else D)
      (BDS.Initialize M B)
    match bmsspLoop G B k (l + 1) t
        (fun Bi Si stI => BMSSP.run G fuel0 l Bi Si stI k t)
        fuel0 D0 st1 [] B [] with
    | none => none
    | some (Bp, U, st2, log) => some ⟨Bp, unionAppend U W, st2, log⟩

/-! ## Public API (api.hpp) -/

/-- Numerator of a rational lower bound of Euler's number `e`
(18 significant digits, denominator `10^17`). -/
def eLowNum : Nat := 271828182845904523

/-- `⌊ln n⌋` for `n ≥ 1`: the largest `j` with `e^j ≤ n`, decided
through the rational bound `eLowNum / 10^17 < e`.  This models the
`std::log` call in `solveSSSP` exactly for every graph size that can
occur (the bound is sharp enough that no integer lies between
`(eLowNum/10^17)^j` and `e^j` for any `j` reachable from a `size_t`
vertex count used here). -/
def lnFloorNat (n : Nat) : Nat :=
  ((List.range 90).filter (fun j => decide (eLowNum ^ j ≤ n * (10 ^ 17) ^ j))).length - 1

/-- The level computed in `solveSSSP`:
`(int)(log(max(n,1)) / max(t,1)) + 1`. -/
def topLevel (n t : Nat) : Nat := lnFloorNat (max n 1) / max t 1 + 1

/-- `solveSSSP(G, source)`: returns the distance map (vertices with a
finite final `d̂`, in vertex insertion order) and the predecessor map.
`none` only on fuel exhaustion of the underlying BMSSP run. -/
def solveSSSP (G : Graph) (source : Nat) (fuel : Nat) :
    Option (List (Nat × EW) × List (Nat × Nat)) :=
  if ¬ G.hasVertex source then some ([], [])
  else
    let st0 := (DistState.init G.numVertices).set source 0
    let k := G.get_k
    let t := G.get_t
    let l := topLevel G.numVertices t
    match BMSSP.run G fuel l ⊤ [source] st0 k t with
    | none => none
    | some res =>
      let st := res.state
      let outDist := G.verts.foldl
        (fun acc v => if st.get v < INFINITE_WEIGHT then acc ++ [(v, st.get v)] else acc) []
      let outPred := G.verts.foldl
        (fun acc v =>
          match st.getPred v with
          | some p => acc ++ [(v, p)]
          | none => acc) []
      some (outDist, outPred)

/-- `get_distance(distances, v)` from api.hpp. -/
def get_distance (distances : List (Nat × EW)) (v : Nat) : EW :=
  match distances.find? (fun p => p.1 == v) with
  | some p => p.2
  | none => ⊤

/-! ## Path reconstruction (path.hpp) -/

/-- `pred.find(v)` on the predecessor `unordered_map`. -/
def predFind (pred : List (Nat × Nat)) (v : Nat) : Option Nat :=
  match pred.find? (fun p => p.1 == v) with
  | some p => some p.2
  | none => none

/-- The traversal loop of `reconstruct_path`, with fuel: follow
predecessor links from `v`, collecting into `path`; on revisiting a
vertex (`seen[v]`) the path is cleared and returned.  Each iteration
either stops or consumes an unseen predecessor-map key, so fuel
`pred.length + 1` always suffices. -/
def reconPathGo (pred : List (Nat × Nat)) :
    Nat → Nat → List Nat → List Nat → Option (List Nat)
  | 0, _, _, _ => none
  | fuel + 1, v, seen, path =>
    if v ∈ seen then some []
    else
      let path1 := path ++ [v]
      match predFind pred v with
      | none => some path1
      | some p => reconPathGo pred fuel p (v :: seen) path1

/-- `reconstruct_path(target, predecessors, source)`: follow
predecessors, reverse, and clear the result when `source.id() != 0` and
the sequence does not begin at `source`.  (The default argument
`Vertex(0)` makes the id-0 case skip the begins-at-source check.) -/
def reconstruct_path (target : Nat) (pred : List (Nat × Nat)) (source : Nat) :
    Option (List Nat) :=
  match reconPathGo pred (pred.length + 1) target [] [] with
  | none => none
  | some path =>
    let rev := path.reverse
    if rev ≠ [] ∧ source ≠ 0 ∧ rev.head? ≠ some source then some []
    else some rev

/-! ## Reference Dijkstra

Second definition for the equivalence claim: a textbook Dijkstra
written from the specification's words ("a reference Dijkstra
implementation"), not from the repository sources. -/

/-- One Dijkstra relaxation of edge `e` from `u` at distance `du`. -/
def dijkRelax (du : EW) (dist : List (Nat × EW)) (e : Edge) : List (Nat × EW) :=
  let alt := du + (e.w : ℚ)
  if alt < lGet dist e.dst then lSet dist e.dst alt else dist

/-- Choose an unvisited vertex with minimal tentative distance. -/
def dijkPickMin (dist : List (Nat × EW)) (visited : List Nat) (vs : List Nat) :
    Option Nat :=
  vs.foldl
    (fun acc v =>
      if v ∈ visited then acc
      else
        match acc with
        | none => if lGet dist v < ⊤ then some v else none
        | some b => if lGet dist v < lGet dist b then some v else acc)
    none

/-- The main Dijkstra loop: `n` rounds of pick-minimum and relax. -/
def dijkLoop (G : Graph) :
    Nat → List (Nat × EW) → List Nat → List (Nat × EW)
  | 0, dist, _ => dist
  | n + 1, dist, visited =>
    match dijkPickMin dist visited G.verts with
    | none => dist
    | some u =>
      let dist' := (G.outgoing u).foldl (dijkRelax (lGet dist u)) dist
      dijkLoop G n dist' (u :: visited)

/-- Reference single-source shortest-path distances: every reachable
vertex is mapped to its shortest distance; unreachable vertices are
absent. -/
def dijkstraRef (G : Graph) (source : Nat) : List (Nat × EW) :=
  if ¬ G.hasVertex source then []
  else dijkLoop G G.numVertices [(source, 0)] []

/-! ## Concrete instances used by the claims -/

/-- Scenario 1 of the specification (§8): the five-vertex chain
`0 → 1 → 2 → 3 → 4` with unit weights. -/
def chainG : Graph :=
  (((((((((Graph.empty.addVertex 0).addVertex 1).addVertex 2).addVertex 3).addVertex
      4).addEdge 0 1 1).addEdge 1 2 1).addEdge 2 3 1).addEdge 3 4 1)

/-- Four-vertex graph exhibiting overlapping sub-call `U` sets: a
heavy and a light parallel edge `0 → 1` plus `1 → 2`, and an isolated
vertex `3`. -/
def overlapG : Graph :=
  ((((((Graph.empty.addVertex 0).addVertex 1).addVertex 2).addVertex 3).addEdge
      0 1 2).addEdge 0 1 1).addEdge 1 2 1

/-- Initial solver state on `overlapG` with source 0, exactly as
`solveSSSP` wires it before the top-level `BMSSP::run` call. -/
def overlapState : DistState := (DistState.init 4).set 0 0

/-- Container state for the round-trip counterexample: `D(1, 10)` after
`Insert(0,4); Insert(1,6); Insert(1,3)`. -/
def rtState : BDS :=
  (((BDS.Initialize 1 10).Insert 0 4).Insert 1 6).Insert 1 3

/-- Apply `n` `Pull`s, concatenating the pulled pairs. -/
def drainPulls : Nat → BDS → List (Nat × EW)
  | 0, _ => []
  | n + 1, s =>
    let r := s.Pull
    r.1.1 ++ drainPulls n r.2

/-- Container state for the pull-order counterexample: `D(1, 10)` after
`BatchPrepend [(0,5)]; Insert(1,1)` (the prepend hits an empty
container, so its precondition holds vacuously). -/
def poState : BDS :=
  ((BDS.Initialize 1 10).BatchPrepend [(0, 5)]).Insert 1 1

/-- The container state after `n` `Pull`s. -/
def pullN : Nat → BDS → BDS
  | 0, s => s
  | n + 1, s => pullN n s.Pull.2

/-! ## Specification predicates -/

/-- Every recorded `d̂` write strictly decreased the stored value. -/
def DecreasingLog (st : DistState) : Prop :=
  ∀ p ∈ st.writeLog, p.2.2 < p.2.1

/-- Pointwise bound between two states' distance arrays. -/
def DistLe (st' st : DistState) : Prop := ∀ v, st'.get v ≤ st.get v

/-- Every heap entry's key dominates the current estimate of its
vertex. -/
def HeapInv (st : DistState) (h : BinaryHeap) : Prop :=
  ∀ j, st.get (h.entAt j).vertex ≤ (h.entAt j).distance

/-- Coherence of the position map with the heap array: every live slot
is indexed under its vertex, and every map entry points at a live slot
holding its vertex.  (This is exactly what `BinaryHeap::is_valid`
checks.) -/
def PosBij (h : BinaryHeap) : Prop :=
  (h.posMap.map Prod.fst).Nodup ∧
  (∀ j, j < h.heap.length → BinaryHeap.posFind h.posMap (h.entAt j).vertex = some j) ∧
  (∀ v p, BinaryHeap.posFind h.posMap v = some p →
    p < h.heap.length ∧ (h.entAt p).vertex = v)

/-- Every entry of `h'` is an entry of `h` (or the default): enough to
transfer `HeapInv` across the permutations done by the bubble moves. -/
def EntSub (h' h : BinaryHeap) : Prop :=
  ∀ m, h'.entAt m = HeapEntry.default ∨ ∃ i, h'.entAt m = h.entAt i

/-! # Theorems -/

unseal Rat.add in
/-- C1.  On the specification's own chain scenario (§8, scenario 1) the
solver terminates but returns only `{0 ↦ 0, 1 ↦ 1, 2 ↦ 2}`: the
reachable vertices 3 and 4 are absent from its distance map, while the
reference Dijkstra assigns them their true distances 3 and 4.  The
full-drain `Pull` of the single seeded pivot removes the last `D1`
block together with its bound, after which every `D.Insert` is a
silent no-op, so the top frame stops after one truncated BaseCase. -/
theorem solveSSSP_chain_drops_reachable_vertices :
    (solveSSSP chainG 0 100).map Prod.fst =
      some [(0, ((0 : ℚ) : EW)), (1, ((1 : ℚ) : EW)), (2, ((2 : ℚ) : EW))] ∧
    (solveSSSP chainG 0 100).map (fun r => get_distance r.1 3) = some ⊤ ∧
    (solveSSSP chainG 0 100).map (fun r => get_distance r.1 4) = some ⊤ ∧
    get_distance (dijkstraRef chainG 0) 3 = ((3 : ℚ) : EW) ∧
    get_distance (dijkstraRef chainG 0) 4 = ((4 : ℚ) : EW) := by
  refine ⟨by decide, by decide, by decide, by decide, by decide⟩

/-- C2.  Draining `D(1, 10)` after `Insert(0,4); Insert(1,6);
Insert(1,3)` with three `Pull`s empties the container but yields the
multiset `{(1,3), (0,4), (1,6)}`: key 1 is delivered twice, because
`Insert(1,3)` landed in a different block than the stale `(1,6)` and
only the target block is scanned for an older occurrence.  The per-key
minimum aggregation of the inserted entries is `{(0,4), (1,3)}`. -/
theorem container_roundtrip_duplicates_key :
    drainPulls 3 rtState = [(1, ((3 : ℚ) : EW)), (0, ((4 : ℚ) : EW)), (1, ((6 : ℚ) : EW))] ∧
    (pullN 3 rtState).total = 0 ∧
    ¬ (Multiset.ofList (drainPulls 3 rtState) =
        Multiset.ofList [(0, ((4 : ℚ) : EW)), (1, ((3 : ℚ) : EW))]) := by
  refine ⟨by decide, by decide, by decide⟩

/-- C3.  From `D(1, 10)` after `BatchPrepend [(0,5)]` (on an empty
container, so the precondition holds vacuously) and `Insert(1,1)`, a
single `Pull` returns `S' = [(0,5)]` with boundary `x = 1` while the
entry `(1,1)` is still inside `D`: the returned pair violates
`value ≤ x`, because `Pull` drains `D0` before `D1` even when `D1`
holds a smaller value. -/
theorem pull_returns_value_above_boundary :
    poState.Pull.1 = ([(0, ((5 : ℚ) : EW))], ((1 : ℚ) : EW)) ∧
    poState.Pull.2.Pull.1.1 = [(1, ((1 : ℚ) : EW))] ∧
    ¬ (((5 : ℚ) : EW) ≤ ((1 : ℚ) : EW)) := by
  refine ⟨by decide, by decide, by decide⟩

unseal Rat.add in
/-- C5.  In the level-1 `BMSSP::run` invocation that `solveSSSP` makes
on `overlapG` with source 0 (`n = 4`, hence `k = 1`, `t = 2`, top level
1), the two successive recursive sub-calls of the frame's main loop
return `U₁ = [0, 1]` and `U₂ = [1, 2]`: vertex 1 lies in both, so the
sub-call `U` sets are not pairwise disjoint. -/
theorem bmssp_subcall_U_sets_overlap :
    (BMSSP.run overlapG 100 1 ⊤ [0] overlapState 1 2).map (fun r => r.subUs) =
      some [[0, 1], [1, 2]] ∧
    overlapG.get_k = 1 ∧ overlapG.get_t = 2 ∧ topLevel overlapG.numVertices 2 = 1 ∧
    1 ∈ [0, 1] ∧ 1 ∈ [1, 2] := by
  refine ⟨by decide, by decide, by decide, by decide, by decide, by decide⟩

/-- C8 counterexample.  With the default source `Vertex(0)`,
`reconstruct_path(5, {}, 0)` returns `[5]`, which does not begin at the
source 0 and is nonetheless not the empty sequence: the
begins-at-source check is skipped whenever `source.id() == 0`. -/
theorem reconstruct_path_skips_source_check_for_id_zero :
    reconstruct_path 5 [] 0 = some [5] ∧ ([5] : List Nat) ≠ [] ∧ (5 : Nat) ≠ 0 := by
  refine ⟨by decide, by decide, by decide⟩

/-! ## Small list lemmas -/

theorem getD_set_self {α : Type _} : ∀ (l : List α) (i : Nat) (a d : α),
    i < l.length → (l.set i a).getD i d = a
  | [], i, _, _, h => absurd h (by simp)
  | _ :: _, 0, _, _, _ => rfl
  | _ :: xs, i + 1, a, d, h =>
    getD_set_self xs i a d (Nat.lt_of_succ_lt_succ h)

theorem getD_set_ne {α : Type _} : ∀ (l : List α) (i j : Nat) (a d : α),
    i ≠ j → (l.set i a).getD j d = l.getD j d
  | [], _, _, _, _, _ => rfl
  | _ :: _, 0, 0, _, _, h => absurd rfl h
  | _ :: _, 0, _ + 1, _, _, _ => rfl
  | _ :: _, _ + 1, 0, _, _, _ => rfl
  | _ :: xs, i + 1, j + 1, a, d, h =>
    getD_set_ne xs i j a d (fun hc => h (by rw [hc]))

theorem foldl_preserve {α β : Type _} {P : α → Prop} {f : α → β → α}
    (hf : ∀ a b, P a → P (f a b)) : ∀ (l : List β) (a : α), P a → P (l.foldl f a)
  | [], _, h => h
  | b :: l, a, h => foldl_preserve hf l (f a b) (hf a b h)

/-- `get` ignores the predecessor array. -/
theorem get_setPred (st : DistState) (v u w : Nat) :
    (st.setPred v u).get w = st.get w := rfl

/-- `getPred` after an in-range `setPred` at the same vertex. -/
theorem getPred_setPred_self (st : DistState) (v u : Nat)
    (h : v < st.pred.length) : (st.setPred v u).getPred v = some u := by
  unfold DistState.setPred DistState.getPred
  exact getD_set_self _ _ _ _ h

/-- C9.  `solveSSSP` on a source absent from the graph returns the
empty distance map and the empty predecessor map (and no other
outcome), taking the early-return path before any state is built. -/
theorem solveSSSP_absent_source_empty (G : Graph) (s fuel : Nat)
    (h : ¬ G.hasVertex s) : solveSSSP G s fuel = some ([], []) := by
  simp [solveSSSP, h]

/-- Closed witness for `solveSSSP_absent_source_empty`: vertex 7 is not
in the empty graph. -/
theorem solveSSSP_absent_source_empty_witness :
    ¬ Graph.empty.hasVertex 7 ∧ solveSSSP Graph.empty 7 3 = some ([], []) :=
  ⟨by decide, solveSSSP_absent_source_empty Graph.empty 7 3 (by decide)⟩

/-- C10.  `BaseCase::run` on a start vertex absent from the graph
returns `(B, ∅)` with the shared `DistState` returned exactly as it
was passed: no `d̂` and no `pred` entry is written. -/
theorem baseCase_absent_vertex_no_effect (G : Graph) (B : EW) (x : Nat)
    (st : DistState) (k fuel : Nat) (h : ¬ G.hasVertex x) :
    BaseCase.run G B x st k fuel = some ⟨B, [], st⟩ := by
  simp [BaseCase.run, h]

/-- Closed witness for `baseCase_absent_vertex_no_effect`. -/
theorem baseCase_absent_vertex_no_effect_witness :
    ¬ chainG.hasVertex 9 ∧
    BaseCase.run chainG 5 9 (DistState.init 5) 2 50 =
      some ⟨5, [], DistState.init 5⟩ :=
  ⟨by decide, baseCase_absent_vertex_no_effect chainG 5 9 (DistState.init 5) 2 50 (by decide)⟩

/-- C7.  When a relaxation computes `alt` exactly equal to the current
estimate `d̂[v]` (within the step's bound: `alt ≤ B` in BaseCase,
`alt < B` in BMSSP), the step overwrites `pred[v]` with the relaxing
vertex `u` and leaves `d̂[v]` unchanged.  The in-range hypothesis on
`v = e.dst` reflects that the state arrays are sized to the vertex
count. -/
theorem tie_relaxation_overwrites_pred_only :
    (∀ (st : DistState) (H : BinaryHeap) (B : EW) (u : Nat) (du : EW) (e : Edge),
      e.dst < st.pred.length →
      du + (e.w : ℚ) = st.get e.dst → du + (e.w : ℚ) ≤ B →
      (baseRelaxEdge B u du (st, H) e).1.get e.dst = st.get e.dst ∧
      (baseRelaxEdge B u du (st, H) e).1.getPred e.dst = some u) ∧
    (∀ (st : DistState) (D : BDS) (B Bp Bi : EW) (u : Nat) (e : Edge),
      e.dst < st.pred.length →
      st.get u + (e.w : ℚ) = st.get e.dst → st.get u + (e.w : ℚ) < B →
      (bmsspRelaxEdge B Bp Bi u (st, D) e).1.get e.dst = st.get e.dst ∧
      (bmsspRelaxEdge B Bp Bi u (st, D) e).1.getPred e.dst = some u) := by
  constructor
  · intro st H B u du e hlen heq hle
    have hnlt : ¬ du + (e.w : ℚ) < st.get e.dst := by rw [heq]; exact lt_irrefl _
    unfold baseRelaxEdge
    rw [if_pos ⟨hle, le_of_eq heq⟩, if_pos (Or.inr heq), if_neg hnlt]
    exact ⟨get_setPred st e.dst u e.dst, getPred_setPred_self st e.dst u hlen⟩
  · intro st D B Bp Bi u e hlen heq hlt
    have hnlt : ¬ st.get u + (e.w : ℚ) < st.get e.dst := by rw [heq]; exact lt_irrefl _
    unfold bmsspRelaxEdge
    rw [if_pos ⟨hlt, le_of_eq heq⟩]
    simp only []
    rw [if_pos (Or.inr heq), if_neg hnlt]
    exact ⟨get_setPred st e.dst u e.dst, getPred_setPred_self st e.dst u hlen⟩

unseal Rat.add in
/-- Closed witness for `tie_relaxation_overwrites_pred_only`: a
zero-weight self-loop at vertex 0 with `d̂[0] = 0` relaxes with
`alt = 0 = d̂[0]`. -/
theorem tie_relaxation_overwrites_pred_only_witness :
    ((baseRelaxEdge 1 0 0 ((DistState.init 1).set 0 0, BinaryHeap.empty)
        ⟨0, 0, 0⟩).1.get 0 = ((DistState.init 1).set 0 0).get 0 ∧
      (baseRelaxEdge 1 0 0 ((DistState.init 1).set 0 0, BinaryHeap.empty)
        ⟨0, 0, 0⟩).1.getPred 0 = some 0) ∧
    ((bmsspRelaxEdge 1 0 1 0 ((DistState.init 1).set 0 0, BDS.Initialize 1 1)
        ⟨0, 0, 0⟩).1.get 0 = ((DistState.init 1).set 0 0).get 0 ∧
      (bmsspRelaxEdge 1 0 1 0 ((DistState.init 1).set 0 0, BDS.Initialize 1 1)
        ⟨0, 0, 0⟩).1.getPred 0 = some 0) :=
  ⟨tie_relaxation_overwrites_pred_only.1 ((DistState.init 1).set 0 0)
      BinaryHeap.empty 1 0 0 ⟨0, 0, 0⟩ (by decide) (by decide) (by decide),
    tie_relaxation_overwrites_pred_only.2 ((DistState.init 1).set 0 0)
      (BDS.Initialize 1 1) 1 0 1 0 ⟨0, 0, 0⟩ (by decide) (by decide) (by decide)⟩

/-! ## Monotone-update lemmas (towards C4) -/

/-- `List.set` out of range is the identity. -/
theorem set_oob {α : Type _} : ∀ (l : List α) (i : Nat) (a : α),
    l.length ≤ i → l.set i a = l
  | [], _, _, _ => rfl
  | _ :: _, 0, _, h => absurd h (by simp)
  | x :: xs, i + 1, a, h => by
    simpa [List.set] using set_oob xs i a (Nat.le_of_succ_le_succ h)

/-- A write strictly below the current value keeps the log decreasing. -/
theorem decLog_set (st : DistState) (v : Nat) (w : EW)
    (hlog : DecreasingLog st) (hlt : w < st.get v) : DecreasingLog (st.set v w) := by
  intro p hp
  have hp' : p = (v, st.get v, w) ∨ p ∈ st.writeLog := List.mem_cons.mp hp
  rcases hp' with h1 | h1
  · subst h1; exact hlt
  · exact hlog p h1

/-- `setPred` leaves the write log untouched. -/
theorem decLog_setPred (st : DistState) (v u : Nat)
    (h : DecreasingLog st) : DecreasingLog (st.setPred v u) := h

/-- A write bounded by the current value only lowers estimates. -/
theorem distLe_set (st : DistState) (v : Nat) (w : EW) (h : w ≤ st.get v) :
    DistLe (st.set v w) st := by
  intro u
  by_cases huv : u = v
  · subst huv
    by_cases hin : u < st.dist.length
    · unfold DistState.set DistState.get
      rw [getD_set_self _ _ _ _ hin]
      exact h
    · unfold DistState.set DistState.get
      rw [set_oob _ _ _ (Nat.le_of_not_lt hin)]
  · unfold DistState.set DistState.get
    rw [getD_set_ne _ _ _ _ _ (fun hc => huv hc.symm)]

theorem distLe_refl (st : DistState) : DistLe st st := fun _ => le_refl _

theorem distLe_trans {a b c : DistState} (h1 : DistLe a b) (h2 : DistLe b c) :
    DistLe a c := fun v => le_trans (h1 v) (h2 v)

theorem distLe_setPred (st : DistState) (v u : Nat) :
    DistLe (st.setPred v u) st := fun _ => le_refl _

/-- One BaseCase edge relaxation: log stays decreasing and estimates
only go down. -/
theorem baseRelaxEdge_mono (B : EW) (u : Nat) (du : EW)
    (acc : DistState × BinaryHeap) (e : Edge)
    (h : DecreasingLog acc.1) :
    DecreasingLog (baseRelaxEdge B u du acc e).1 ∧
    DistLe (baseRelaxEdge B u du acc e).1 acc.1 := by
  unfold baseRelaxEdge
  simp only []
  by_cases h1 : du + (e.w : ℚ) ≤ B ∧ du + (e.w : ℚ) ≤ acc.1.get e.dst
  · rw [if_pos h1]
    by_cases h2 : du + (e.w : ℚ) < acc.1.get e.dst ∨ du + (e.w : ℚ) = acc.1.get e.dst
    · rw [if_pos h2]
      by_cases h3 : du + (e.w : ℚ) < acc.1.get e.dst
      · rw [if_pos h3]
        exact ⟨decLog_setPred _ _ _ (decLog_set _ _ _ h h3),
          distLe_trans (distLe_setPred _ _ _) (distLe_set _ _ _ (le_of_lt h3))⟩
      · rw [if_neg h3]
        exact ⟨decLog_setPred _ _ _ h, distLe_setPred _ _ _⟩
    · rw [if_neg h2]
      exact ⟨h, distLe_refl _⟩
  · rw [if_neg h1]
    exact ⟨h, distLe_refl _⟩

/-- Fold form of `baseRelaxEdge_mono` over an edge list. -/
theorem baseRelaxFold_mono (B : EW) (u : Nat) (du : EW) (es : List Edge)
    (acc : DistState × BinaryHeap) (h : DecreasingLog acc.1) :
    DecreasingLog (es.foldl (baseRelaxEdge B u du) acc).1 ∧
    DistLe (es.foldl (baseRelaxEdge B u du) acc).1 acc.1 := by
  induction es generalizing acc with
  | nil => exact ⟨h, distLe_refl _⟩
  | cons e es ih =>
    have h1 := baseRelaxEdge_mono B u du acc e h
    have h2 := ih (baseRelaxEdge B u du acc e) h1.1
    exact ⟨h2.1, distLe_trans h2.2 h1.2⟩

/-- BaseCase's loop: log stays decreasing, estimates only go down. -/
theorem baseCaseLoop_mono (G : Graph) (B : EW) (k : Nat) :
    ∀ (fuel : Nat) (H : BinaryHeap) (st : DistState) (U : List Nat) out,
      DecreasingLog st → baseCaseLoop G B k fuel H st U = some out →
      DecreasingLog out.1 ∧ DistLe out.1 st := by
  intro fuel
  induction fuel with
  | zero => intro H st U out _ hout; exact absurd hout (by simp [baseCaseLoop])
  | succ fuel ih =>
    intro H st U out h hout
    unfold baseCaseLoop at hout
    split at hout
    · cases hout; exact ⟨h, distLe_refl _⟩
    · split at hout
      · cases hout; exact ⟨h, distLe_refl _⟩
      · next u du H1 heq =>
        split at hout
        · cases hout; exact ⟨h, distLe_refl _⟩
        · have hrel := baseRelaxFold_mono B u du (G.outgoing u) (st, H1) h
          have h2 := ih _ _ _ _ hrel.1 hout
          exact ⟨h2.1, distLe_trans h2.2 hrel.2⟩

/-- `BaseCase::run`: log stays decreasing, estimates only go down (the
initial `d̂[x] = +∞ → 0` transition is itself a strict decrease). -/
theorem baseCase_mono (G : Graph) (B : EW) (x : Nat) (st : DistState)
    (k fuel : Nat) (r : BaseCaseResult) (h : DecreasingLog st)
    (hr : BaseCase.run G B x st k fuel = some r) :
    DecreasingLog r.state ∧ DistLe r.state st := by
  unfold BaseCase.run at hr
  split at hr
  · cases hr; exact ⟨h, distLe_refl _⟩
  · simp only [] at hr
    have hst0 : DecreasingLog (if st.get x = ⊤ then st.set x 0 else st) ∧
        DistLe (if st.get x = ⊤ then st.set x 0 else st) st := by
      split
      · next htop =>
        refine ⟨decLog_set _ _ _ h ?_, distLe_set _ _ _ ?_⟩
        · rw [htop]; exact (by decide : (0 : EW) < ⊤)
        · rw [htop]; exact le_top
      · exact ⟨h, distLe_refl _⟩
    split at hr
    · exact absurd hr (by simp)
    · next st1 U heq =>
      cases hr
      have h2 := baseCaseLoop_mono G B k fuel _ _ _ (st1, U) hst0.1 heq
      exact ⟨h2.1, distLe_trans h2.2 hst0.2⟩

/-- One FindPivots propagation step: log stays decreasing, estimates
only go down. -/
theorem fpPropStep_mono (pm : List (Nat × Nat)) (st : DistState) (p : Nat × EW)
    (h : DecreasingLog st) :
    DecreasingLog (fpPropStep pm st p) ∧ DistLe (fpPropStep pm st p) st := by
  unfold fpPropStep
  simp only []
  by_cases h1 : p.2 < st.get p.1
  · rw [if_pos h1]
    cases parGet pm p.1 with
    | some u =>
      exact ⟨decLog_setPred _ _ _ (decLog_set _ _ _ h h1),
        distLe_trans (distLe_setPred _ _ _) (distLe_set _ _ _ (le_of_lt h1))⟩
    | none =>
      exact ⟨decLog_set _ _ _ h h1, distLe_set _ _ _ (le_of_lt h1)⟩
  · rw [if_neg h1]
    exact ⟨h, distLe_refl _⟩

/-- FindPivots' propagation: log stays decreasing, estimates only go
down. -/
theorem fpPropagate_mono (l : List (Nat × EW)) (pm : List (Nat × Nat))
    (st : DistState) (h : DecreasingLog st) :
    DecreasingLog (fpPropagate l pm st) ∧ DistLe (fpPropagate l pm st) st := by
  unfold fpPropagate
  induction l generalizing st with
  | nil => exact ⟨h, distLe_refl _⟩
  | cons p l ih =>
    simp only [List.foldl]
    have hs := fpPropStep_mono pm st p h
    have h2 := ih (fpPropStep pm st p) hs.1
    exact ⟨h2.1, distLe_trans h2.2 hs.2⟩

/-- `FindPivots.execute`: the returned state only lowers estimates. -/
theorem findPivots_mono (G : Graph) (B : EW) (S : List Nat) (k : Nat)
    (st : DistState) (h : DecreasingLog st) :
    DecreasingLog (FindPivots.execute G B S k st).2.2 ∧
    DistLe (FindPivots.execute G B S k st).2.2 st := by
  unfold FindPivots.execute
  simp only []
  split <;> exact fpPropagate_mono _ _ _ h

/-- One BMSSP edge relaxation: log stays decreasing, estimates only go
down (the container never touches the state). -/
theorem bmsspRelaxEdge_mono (B Bp Bi : EW) (u : Nat)
    (acc : DistState × BDS) (e : Edge) (h : DecreasingLog acc.1) :
    DecreasingLog (bmsspRelaxEdge B Bp Bi u acc e).1 ∧
    DistLe (bmsspRelaxEdge B Bp Bi u acc e).1 acc.1 := by
  unfold bmsspRelaxEdge
  simp only []
  by_cases h1 : acc.1.get u + (e.w : ℚ) < B ∧ acc.1.get u + (e.w : ℚ) ≤ acc.1.get e.dst
  · rw [if_pos h1]
    by_cases h2 : acc.1.get u + (e.w : ℚ) < acc.1.get e.dst ∨
        acc.1.get u + (e.w : ℚ) = acc.1.get e.dst
    · rw [if_pos h2]
      by_cases h3 : acc.1.get u + (e.w : ℚ) < acc.1.get e.dst
      · rw [if_pos h3]
        exact ⟨decLog_setPred _ _ _ (decLog_set _ _ _ h h3),
          distLe_trans (distLe_setPred _ _ _) (distLe_set _ _ _ (le_of_lt h3))⟩
      · rw [if_neg h3]
        exact ⟨decLog_setPred _ _ _ h, distLe_setPred _ _ _⟩
    · rw [if_neg h2]
      exact ⟨h, distLe_refl _⟩
  · rw [if_neg h1]
    by_cases h4 : Bp ≤ acc.1.get u + (e.w : ℚ) ∧ acc.1.get u + (e.w : ℚ) < Bi
    · rw [if_pos h4]
      exact ⟨h, distLe_refl _⟩
    · rw [if_neg h4]
      exact ⟨h, distLe_refl _⟩

/-- The per-`u` body of BMSSP's relaxation fold. -/
theorem bmsspRelaxFold_mono (B Bp Bi : EW) (u : Nat) (es : List Edge)
    (acc : DistState × BDS) (h : DecreasingLog acc.1) :
    DecreasingLog (es.foldl (bmsspRelaxEdge B Bp Bi u) acc).1 ∧
    DistLe (es.foldl (bmsspRelaxEdge B Bp Bi u) acc).1 acc.1 := by
  induction es generalizing acc with
  | nil => exact ⟨h, distLe_refl _⟩
  | cons e es ih =>
    have h1 := bmsspRelaxEdge_mono B Bp Bi u acc e h
    have h2 := ih (bmsspRelaxEdge B Bp Bi u acc e) h1.1
    exact ⟨h2.1, distLe_trans h2.2 h1.2⟩

/-- The fold over a returned `Uᵢ` in BMSSP's loop: log stays
decreasing, estimates only go down. -/
theorem bmsspUFold_mono (G : Graph) (B Bp Bi : EW) :
    ∀ (Us : List Nat) (a : List Nat × DistState × BDS),
      DecreasingLog a.2.1 →
      DecreasingLog ((Us.foldl (fun (a : List Nat × DistState × BDS) u =>
          let resU1 := if u ∈ a.1 then a.1 else a.1 ++ [u]
          let rel := (G.outgoing u).foldl (bmsspRelaxEdge B Bp Bi u) (a.2.1, a.2.2)
          (resU1, rel.1, rel.2)) a)).2.1 ∧
      DistLe ((Us.foldl (fun (a : List Nat × DistState × BDS) u =>
          let resU1 := if u ∈ a.1 then a.1 else a.1 ++ [u]
          let rel := (G.outgoing u).foldl (bmsspRelaxEdge B Bp Bi u) (a.2.1, a.2.2)
          (resU1, rel.1, rel.2)) a)).2.1 a.2.1
  | [], _, ha => ⟨ha, distLe_refl _⟩
  | v :: Us, a, ha => by
    simp only [List.foldl_cons]
    have h1 := bmsspRelaxFold_mono B Bp Bi v (G.outgoing v) (a.2.1, a.2.2) ha
    have h2 := bmsspUFold_mono G B Bp Bi Us
      ((if v ∈ a.1 then a.1 else a.1 ++ [v]),
        ((G.outgoing v).foldl (bmsspRelaxEdge B Bp Bi v) (a.2.1, a.2.2)).1,
        ((G.outgoing v).foldl (bmsspRelaxEdge B Bp Bi v) (a.2.1, a.2.2)).2) h1.1
    exact ⟨h2.1, distLe_trans h2.2 h1.2⟩

/-- BMSSP's main loop: assuming the recursive sub-call only lowers
estimates and keeps the log decreasing, so does the loop. -/
theorem bmsspLoop_mono (G : Graph) (B : EW) (k l t : Nat)
    (sub : EW → List Nat → DistState → Option BMSSPResult)
    (hsub : ∀ Bi Si stI r, DecreasingLog stI → sub Bi Si stI = some r →
      DecreasingLog r.state ∧ DistLe r.state stI) :
    ∀ (fuel : Nat) (D : BDS) (st : DistState) resU curBp log out,
      DecreasingLog st →
      bmsspLoop G B k l t sub fuel D st resU curBp log = some out →
      DecreasingLog out.2.2.1 ∧ DistLe out.2.2.1 st := by
  intro fuel
  induction fuel with
  | zero => intro D st resU curBp log out _ hout; exact absurd hout (by simp [bmsspLoop])
  | succ fuel ih =>
    intro D st resU curBp log out h hout
    unfold bmsspLoop at hout
    split at hout
    · cases hout; exact ⟨h, distLe_refl _⟩
    · simp only [] at hout
      split at hout
      · cases hout; exact ⟨h, distLe_refl _⟩
      · split at hout
        · exact absurd hout (by simp)
        · next subRes heq =>
          have hs := hsub _ _ _ _ h heq
          have hst2 := bmsspUFold_mono G B (min curBp subRes.B_prime) (D.Pull.1.2)
            subRes.U (resU, subRes.state, D.Pull.2) hs.1
          split at hout
          · cases hout
            exact ⟨hst2.1, distLe_trans hst2.2 hs.2⟩
          · have h3 := ih _ _ _ _ _ _ hst2.1 hout
            exact ⟨h3.1, distLe_trans h3.2 (distLe_trans hst2.2 hs.2)⟩

/-- `BMSSP::run`: the returned state's log stays decreasing and its
estimates are pointwise no larger than the input's. -/
theorem bmsspRun_mono (G : Graph) (fuel0 : Nat) :
    ∀ (l : Nat) (B : EW) (S : List Nat) (st : DistState) (k t : Nat) r,
      DecreasingLog st → BMSSP.run G fuel0 l B S st k t = some r →
      DecreasingLog r.state ∧ DistLe r.state st := by
  intro l
  induction l with
  | zero =>
    intro B S st k t r h hr
    match S, hr with
    | [], hr => cases hr; exact ⟨h, distLe_refl _⟩
    | s0 :: srest, hr =>
      unfold BMSSP.run at hr
      split at hr
      · exact absurd hr (by simp)
      · next bc heq =>
        cases hr
        exact baseCase_mono G B s0 st k fuel0 bc h heq
  | succ l ih =>
    intro B S st k t r h hr
    match S, hr with
    | [], hr => cases hr; exact ⟨h, distLe_refl _⟩
    | s0 :: srest, hr =>
      unfold BMSSP.run at hr
      simp only [] at hr
      have hfp := findPivots_mono G B
        ((s0 :: srest).foldl (fun acc v => if v ∈ acc then acc else acc ++ [v]) []) k st h
      split at hr
      · exact absurd hr (by simp)
      · next Bp U st2 lg heq =>
        cases hr
        have hloop := bmsspLoop_mono G B k (l + 1) t
          (fun Bi Si stI => BMSSP.run G fuel0 l Bi Si stI k t)
          (fun Bi Si stI rr hh hrr => ih Bi Si stI k t rr hh hrr)
          fuel0 _ _ [] B [] (Bp, U, st2, lg) hfp.1 heq
        exact ⟨hloop.1, distLe_trans hloop.2 hfp.2⟩

/-- C4.  Over any `BaseCase::run` and any `BMSSP::run` execution, every
write to `d̂` recorded in the ghost log strictly decreases the stored
value (the initial `+∞ → 0` transition included), so `d̂[v]` is
monotonically non-increasing for every vertex over the whole run. -/
theorem dist_writes_strictly_decrease :
    (∀ (G : Graph) (B : EW) (x : Nat) (st : DistState) (k fuel : Nat) r,
      DecreasingLog st → BaseCase.run G B x st k fuel = some r →
      DecreasingLog r.state ∧ DistLe r.state st) ∧
    (∀ (G : Graph) (fuel0 l : Nat) (B : EW) (S : List Nat) (st : DistState)
      (k t : Nat) r,
      DecreasingLog st → BMSSP.run G fuel0 l B S st k t = some r →
      DecreasingLog r.state ∧ DistLe r.state st) :=
  ⟨fun G B x st k fuel r h hr => baseCase_mono G B x st k fuel r h hr,
    fun G fuel0 l B S st k t r h hr => bmsspRun_mono G fuel0 l B S st k t r h hr⟩

unseal Rat.add in
/-- Closed witness for `dist_writes_strictly_decrease`: the chain run
of C1 keeps its write log strictly decreasing. -/
theorem dist_writes_strictly_decrease_witness :
    DecreasingLog ((BMSSP.run chainG 100 1 ⊤ [0] ((DistState.init 5).set 0 0)
      1 2).getD ⟨⊤, [], DistState.init 0, []⟩).state :=
  (dist_writes_strictly_decrease.2 chainG 100 1 ⊤ [0]
    ((DistState.init 5).set 0 0) 1 2
    ((BMSSP.run chainG 100 1 ⊤ [0] ((DistState.init 5).set 0 0)
      1 2).getD ⟨⊤, [], DistState.init 0, []⟩)
    (by
      intro p hp
      rcases List.mem_cons.mp hp with h1 | h1
      · subst h1; decide
      · exact absurd h1 (by simp [DistState.init, DistState.set]))
    (by rfl)).1

/-! ## Path reconstruction (towards C8) -/

/-- Invariant of `reconPathGo`: a returned list is either the cleared
`[]` (cycle) or extends `path ++ [v]` — same head, duplicate-free,
nonempty. -/
theorem reconPathGo_spec (pred : List (Nat × Nat)) :
    ∀ (fuel v : Nat) (seen path res : List Nat),
      path.Nodup → (∀ x ∈ path, x ∈ seen) →
      reconPathGo pred fuel v seen path = some res →
      res = [] ∨ (res.head? = (path ++ [v]).head? ∧ res.Nodup ∧ res ≠ []) := by
  intro fuel
  induction fuel with
  | zero => intro v seen path res _ _ hout; exact absurd hout (by simp [reconPathGo])
  | succ fuel ih =>
    intro v seen path res hnd hsub hout
    unfold reconPathGo at hout
    split at hout
    · cases hout; exact Or.inl rfl
    · next hvs =>
      have hvp : v ∉ path := fun hc => hvs (hsub v hc)
      have hnd1 : (path ++ [v]).Nodup := by
        rw [List.nodup_append]
        exact ⟨hnd, List.nodup_singleton v,
          fun a ha hav => hvp (by
            have : a = v := by simpa using hav
            rwa [this] at ha)⟩
      split at hout
      · cases hout
        refine Or.inr ⟨rfl, hnd1, by simp⟩
      · next p hp =>
        have hsub1 : ∀ x ∈ path ++ [v], x ∈ v :: seen := by
          intro x hx
          rcases List.mem_append.mp hx with hx | hx
          · exact List.mem_cons_of_mem v (hsub x hx)
          · have : x = v := by simpa using hx
            rw [this]; exact List.mem_cons_self v seen
        have h2 := ih p (v :: seen) (path ++ [v]) res hnd1 hsub1 hout
        rcases h2 with h2 | h2
        · exact Or.inl h2
        · refine Or.inr ⟨?_, h2.2.1, h2.2.2⟩
          rw [h2.1]
          cases path with
          | nil => rfl
          | cons q t => rfl

/-- C8 amended.  When `reconstruct_path` returns a nonempty sequence,
it ends at the target, contains no repeated vertex (cycles yield `[]`),
and — provided `source.id() ≠ 0` — begins at the source.  (For a source
with id 0 the begins-at-source check is skipped, per the
counterexample.) -/
theorem reconstruct_path_amended (target : Nat) (pred : List (Nat × Nat))
    (source : Nat) (r : List Nat)
    (h : reconstruct_path target pred source = some r) (hne : r ≠ []) :
    (source ≠ 0 → r.head? = some source) ∧ r.getLast? = some target ∧ r.Nodup := by
  unfold reconstruct_path at h
  split at h
  · exact absurd h (by simp)
  · next path hpath =>
    simp only [] at h
    split at h
    · cases h; exact absurd rfl hne
    · next hguard =>
      cases h
      have hspec := reconPathGo_spec pred (pred.length + 1) target [] [] path
        List.nodup_nil (by intro x hx; exact absurd hx (List.not_mem_nil x)) hpath
      rcases hspec with hnil | ⟨hhead, hnd, hpne⟩
      · rw [hnil] at hne; exact absurd rfl hne
      · have hlast : path.reverse.getLast? = some target := by
          rw [List.getLast?_reverse, hhead]; rfl
        refine ⟨?_, hlast, List.nodup_reverse.mpr hnd⟩
        intro hs0
        by_contra hhd
        exact hguard ⟨hne, hs0, hhd⟩

/-- Closed witness for `reconstruct_path_amended`: the chain
predecessor map `{3 ↦ 2, 2 ↦ 1}` from source 1. -/
theorem reconstruct_path_amended_witness :
    ((1 : Nat) ≠ 0 → ([1, 2, 3] : List Nat).head? = some 1) ∧
    ([1, 2, 3] : List Nat).getLast? = some 3 ∧ ([1, 2, 3] : List Nat).Nodup :=
  reconstruct_path_amended 3 [(3, 2), (2, 1)] 1 [1, 2, 3] (by decide) (by decide)

/-! ## Binary-heap invariants (towards C6) -/

open BinaryHeap in
theorem posFind_cons (p : Nat × Nat) (rest : List (Nat × Nat)) (w : Nat) :
    posFind (p :: rest) w = if p.1 = w then some p.2 else posFind rest w := by
  unfold posFind
  simp only [List.find?]
  by_cases h : p.1 = w
  · rw [if_pos h, show (p.1 == w) = true from beq_iff_eq.mpr h]
  · rw [if_neg h, show (p.1 == w) = false from beq_eq_false_iff_ne.mpr h]

open BinaryHeap in
theorem posSet_cons (p : Nat × Nat) (rest : List (Nat × Nat)) (v i : Nat) :
    posSet (p :: rest) v i =
      if p.1 = v then (v, i) :: rest else p :: posSet rest v i := by
  unfold posSet
  by_cases h : p.1 = v
  · rw [if_pos h, if_pos (beq_iff_eq.mpr h)]
  · rw [if_neg h, if_neg (by simpa using h)]
    cases rest with
    | nil => rfl
    | cons q t => rfl

open BinaryHeap in
theorem posErase_cons (p : Nat × Nat) (rest : List (Nat × Nat)) (v : Nat) :
    posErase (p :: rest) v = if p.1 = v then rest else p :: posErase rest v := by
  unfold posErase
  by_cases h : p.1 = v
  · rw [if_pos h, if_pos (beq_iff_eq.mpr h)]
  · rw [if_neg h, if_neg (by simpa using h)]
    cases rest with
    | nil => rfl
    | cons q t => rfl

open BinaryHeap in
theorem posFind_posSet_self (m : List (Nat × Nat)) (v i : Nat) :
    posFind (posSet m v i) v = some i := by
  induction m with
  | nil => simp [posSet, posFind_cons]
  | cons p rest ih =>
    rw [posSet_cons]
    by_cases h : p.1 = v
    · rw [if_pos h, posFind_cons, if_pos rfl]
    · rw [if_neg h, posFind_cons, if_neg h, ih]

open BinaryHeap in
theorem posFind_posSet_ne (m : List (Nat × Nat)) (v i w : Nat) (hw : w ≠ v) :
    posFind (posSet m v i) w = posFind m w := by
  induction m with
  | nil =>
    show posFind [(v, i)] w = posFind [] w
    rw [posFind_cons, if_neg (fun hc => hw hc.symm)]
  | cons p rest ih =>
    rw [posSet_cons]
    by_cases h : p.1 = v
    · rw [if_pos h, posFind_cons, posFind_cons,
        if_neg (fun hc => hw hc.symm), if_neg (by rw [h]; exact fun hc => hw hc.symm)]
    · rw [if_neg h, posFind_cons, posFind_cons, ih]

open BinaryHeap in
theorem posFind_eq_none_of_not_mem (m : List (Nat × Nat)) (v : Nat)
    (h : v ∉ m.map Prod.fst) : posFind m v = none := by
  induction m with
  | nil => rfl
  | cons p rest ih =>
    rw [posFind_cons, if_neg (fun hc => h (by simp [hc]))]
    exact ih (fun hc => h (by simp [hc]))

open BinaryHeap in
theorem posErase_sublist (m : List (Nat × Nat)) (v : Nat) :
    (posErase m v).Sublist m := by
  induction m with
  | nil => simp [posErase]
  | cons p rest ih =>
    rw [posErase_cons]
    by_cases h : p.1 = v
    · rw [if_pos h]
      exact List.sublist_cons_self p rest
    · rw [if_neg h]
      exact ih.cons₂ p

open BinaryHeap in
theorem posFind_posErase_self (m : List (Nat × Nat)) (v : Nat)
    (hnd : (m.map Prod.fst).Nodup) : posFind (posErase m v) v = none := by
  induction m with
  | nil => rfl
  | cons p rest ih =>
    rw [List.map_cons] at hnd
    have hnd' := List.nodup_cons.mp hnd
    rw [posErase_cons]
    by_cases h : p.1 = v
    · rw [if_pos h]
      refine posFind_eq_none_of_not_mem rest v ?_
      rw [← h]
      exact hnd'.1
    · rw [if_neg h, posFind_cons, if_neg h]
      exact ih hnd'.2

open BinaryHeap in
theorem posFind_posErase_ne (m : List (Nat × Nat)) (v w : Nat) (hw : w ≠ v) :
    posFind (posErase m v) w = posFind m w := by
  induction m with
  | nil => rfl
  | cons p rest ih =>
    rw [posErase_cons]
    by_cases h : p.1 = v
    · rw [if_pos h, posFind_cons, if_neg (by rw [h]; exact fun hc => hw hc.symm)]
    · rw [if_neg h, posFind_cons, posFind_cons, ih]

open BinaryHeap in
theorem mem_keys_posSet (m : List (Nat × Nat)) (v i x : Nat) :
    x ∈ (posSet m v i).map Prod.fst ↔ x ∈ m.map Prod.fst ∨ x = v := by
  induction m with
  | nil => simp [posSet]
  | cons p rest ih =>
    rw [posSet_cons]
    by_cases h : p.1 = v
    · subst h
      rw [if_pos rfl]
      simp only [List.map_cons, List.mem_cons]
      tauto
    · rw [if_neg h]
      simp only [List.map_cons, List.mem_cons]
      rw [ih]
      tauto

open BinaryHeap in
theorem keys_posSet_nodup (m : List (Nat × Nat)) (v i : Nat)
    (hnd : (m.map Prod.fst).Nodup) : ((posSet m v i).map Prod.fst).Nodup := by
  induction m with
  | nil => simp [posSet]
  | cons p rest ih =>
    rw [List.map_cons] at hnd
    have hnd' := List.nodup_cons.mp hnd
    rw [posSet_cons]
    by_cases h : p.1 = v
    · rw [if_pos h]
      simp only [List.map_cons, List.nodup_cons]
      exact ⟨by rw [← h]; exact hnd'.1, hnd'.2⟩
    · rw [if_neg h]
      simp only [List.map_cons, List.nodup_cons]
      refine ⟨?_, ih hnd'.2⟩
      intro hc
      rcases (mem_keys_posSet rest v i p.1).mp hc with hc | hc
      · exact hnd'.1 hc
      · exact h hc

open BinaryHeap in
theorem entAt_oob (h : BinaryHeap) (j : Nat) (hj : h.heap.length ≤ j) :
    h.entAt j = HeapEntry.default :=
  List.getD_eq_default _ _ hj

/-- `getD` through a one-element append: before, at, or past the seam. -/
theorem getD_append_cases {α : Type _} (l : List α) (a d : α) (j : Nat) :
    (l ++ [a]).getD j d =
      if j < l.length then l.getD j d else if j = l.length then a else d := by
  by_cases h1 : j < l.length
  · rw [if_pos h1]
    exact List.getD_append l [a] d j h1
  · rw [if_neg h1]
    by_cases h2 : j = l.length
    · rw [if_pos h2, h2]
      simp [List.getD_append_right]
    · rw [if_neg h2]
      refine List.getD_eq_default _ _ ?_
      rw [List.length_append]
      have := Nat.lt_of_le_of_ne (Nat.le_of_not_lt h1) (fun hc => h2 hc.symm)
      simpa using this

theorem getD_dropLast {α : Type _} : ∀ (l : List α) (j : Nat) (d : α),
    j < l.length - 1 → l.dropLast.getD j d = l.getD j d
  | [], _, _, h => absurd h (by simp)
  | [_], _, _, h => absurd h (by simp)
  | _ :: b :: t, 0, _, _ => rfl
  | a :: b :: t, j + 1, d, h => by
    have : j < (b :: t).length - 1 := by
      simpa using Nat.lt_of_succ_lt_succ (by simpa using h)
    simpa using getD_dropLast (b :: t) j d this

open BinaryHeap in
theorem entLt_lt_length (h : BinaryHeap) (i : Nat) (e : HeapEntry)
    (hlt : entLt (h.entAt i) e = true) : i < h.heap.length := by
  by_contra hc
  rw [entAt_oob h i (Nat.le_of_not_lt hc)] at hlt
  unfold entLt HeapEntry.default at hlt
  simp only [decide_eq_true_eq] at hlt
  exact not_top_lt hlt

theorem heapInv_entSub {st : DistState} {h' h : BinaryHeap}
    (hsub : EntSub h' h) (hinv : HeapInv st h) : HeapInv st h' := by
  intro j
  rcases hsub j with he | ⟨i, he⟩
  · rw [he]; exact le_top
  · rw [he]; exact hinv i

open BinaryHeap in
theorem swapEntries_self (h : BinaryHeap) (i : Nat) : h.swapEntries i i = h := by
  unfold swapEntries
  rw [if_pos (by simp)]

open BinaryHeap in
theorem swapEntries_heap (h : BinaryHeap) (i j : Nat) (hij : i ≠ j) :
    (h.swapEntries i j).heap = (h.heap.set i (h.entAt j)).set j (h.entAt i) := by
  unfold swapEntries
  rw [if_neg (by simpa using hij)]

open BinaryHeap in
theorem swapEntries_posMap (h : BinaryHeap) (i j : Nat) (hij : i ≠ j) :
    (h.swapEntries i j).posMap =
      posSet (posSet h.posMap (h.entAt i).vertex j) (h.entAt j).vertex i := by
  unfold swapEntries
  rw [if_neg (by simpa using hij)]

open BinaryHeap in
theorem swapEntries_length (h : BinaryHeap) (i j : Nat) :
    (h.swapEntries i j).heap.length = h.heap.length := by
  by_cases hij : i = j
  · rw [hij, swapEntries_self]
  · rw [swapEntries_heap h i j hij]
    simp

open BinaryHeap in
theorem entAt_swap_j (h : BinaryHeap) (i j : Nat) (hij : i ≠ j)
    (hj : j < h.heap.length) : (h.swapEntries i j).entAt j = h.entAt i := by
  unfold BinaryHeap.entAt
  rw [swapEntries_heap h i j hij]
  exact getD_set_self _ _ _ _ (by simpa using hj)

open BinaryHeap in
theorem entAt_swap_i (h : BinaryHeap) (i j : Nat) (hij : i ≠ j)
    (hi : i < h.heap.length) : (h.swapEntries i j).entAt i = h.entAt j := by
  unfold BinaryHeap.entAt
  rw [swapEntries_heap h i j hij,
    getD_set_ne _ _ _ _ _ (fun hc => hij hc.symm)]
  exact getD_set_self _ _ _ _ hi

open BinaryHeap in
theorem entAt_swap_other (h : BinaryHeap) (i j m : Nat) (hmi : m ≠ i)
    (hmj : m ≠ j) : (h.swapEntries i j).entAt m = h.entAt m := by
  by_cases hij : i = j
  · rw [hij, swapEntries_self]
  · unfold BinaryHeap.entAt
    rw [swapEntries_heap h i j hij,
      getD_set_ne _ _ _ _ _ (fun hc => hmj hc.symm),
      getD_set_ne _ _ _ _ _ (fun hc => hmi hc.symm)]

open BinaryHeap in
theorem entSub_swap (h : BinaryHeap) (i j : Nat) : EntSub (h.swapEntries i j) h := by
  by_cases hij : i = j
  · rw [hij, swapEntries_self]
    exact fun m => Or.inr ⟨m, rfl⟩
  · intro m
    by_cases hmj : m = j
    · subst hmj
      by_cases hm : m < h.heap.length
      · exact Or.inr ⟨i, entAt_swap_j h i m hij hm⟩
      · exact Or.inl (entAt_oob _ m (by rw [swapEntries_length]; exact Nat.le_of_not_lt hm))
    · by_cases hmi : m = i
      · subst hmi
        by_cases hm : m < h.heap.length
        · exact Or.inr ⟨j, entAt_swap_i h m j hij hm⟩
        · exact Or.inl (entAt_oob _ m (by rw [swapEntries_length]; exact Nat.le_of_not_lt hm))
      · exact Or.inr ⟨m, entAt_swap_other h i j m hmi hmj⟩

open BinaryHeap in
theorem posBij_swap (h : BinaryHeap) (i j : Nat) (hi : i < h.heap.length)
    (hj : j < h.heap.length) (hb : PosBij h) : PosBij (h.swapEntries i j) := by
  by_cases hij : i = j
  · rw [hij, swapEntries_self]; exact hb
  · obtain ⟨hnd, h1, h2⟩ := hb
    have hvv : (h.entAt i).vertex ≠ (h.entAt j).vertex := by
      intro hc
      have e1 := h1 i hi
      have e2 := h1 j hj
      rw [hc] at e1
      rw [e1] at e2
      exact hij (Option.some.inj e2)
    refine ⟨?_, ?_, ?_⟩
    · rw [swapEntries_posMap h i j hij]
      exact keys_posSet_nodup _ _ _ (keys_posSet_nodup _ _ _ hnd)
    · intro m hm
      rw [swapEntries_length] at hm
      rw [swapEntries_posMap h i j hij]
      by_cases hmj : m = j
      · subst hmj
        rw [entAt_swap_j h i m hij hm,
          posFind_posSet_ne _ _ _ _ hvv, posFind_posSet_self]
      · by_cases hmi : m = i
        · subst hmi
          rw [entAt_swap_i h m j hij hm, posFind_posSet_self]
        · rw [entAt_swap_other h i j m hmi hmj]
          have hw := h1 m hm
          have hwi : (h.entAt m).vertex ≠ (h.entAt i).vertex := by
            intro hc
            rw [hc] at hw
            rw [h1 i hi] at hw
            exact hmi (Option.some.inj hw).symm
          have hwj : (h.entAt m).vertex ≠ (h.entAt j).vertex := by
            intro hc
            rw [hc] at hw
            rw [h1 j hj] at hw
            exact hmj (Option.some.inj hw).symm
          rw [posFind_posSet_ne _ _ _ _ hwj, posFind_posSet_ne _ _ _ _ hwi]
          exact hw
    · intro v p hp
      rw [swapEntries_posMap h i j hij] at hp
      rw [swapEntries_length]
      by_cases hvj : v = (h.entAt j).vertex
      · subst hvj
        rw [posFind_posSet_self] at hp
        cases Option.some.inj hp
        exact ⟨hi, by rw [entAt_swap_i h i j hij hi]⟩
      · by_cases hvi : v = (h.entAt i).vertex
        · subst hvi
          rw [posFind_posSet_ne _ _ _ _ hvj, posFind_posSet_self] at hp
          cases Option.some.inj hp
          exact ⟨hj, by rw [entAt_swap_j h i j hij hj]⟩
        · rw [posFind_posSet_ne _ _ _ _ hvj, posFind_posSet_ne _ _ _ _ hvi] at hp
          have := h2 v p hp
          refine ⟨this.1, ?_⟩
          have hpi : p ≠ i := fun hc => hvi (by rw [← hc]; exact this.2.symm)
          have hpj : p ≠ j := fun hc => hvj (by rw [← hc]; exact this.2.symm)
          rw [entAt_swap_other h i j p hpi hpj]
          exact this.2

open BinaryHeap in
theorem bubbleUpAux_pres (st : DistState) :
    ∀ (fuel : Nat) (h : BinaryHeap) (i : Nat), PosBij h → HeapInv st h →
      PosBij (bubbleUpAux fuel h i) ∧ HeapInv st (bubbleUpAux fuel h i) ∧
      (bubbleUpAux fuel h i).heap.length = h.heap.length := by
  intro fuel
  induction fuel with
  | zero => intro h i hb hinv; exact ⟨hb, hinv, rfl⟩
  | succ fuel ih =>
    intro h i hb hinv
    unfold bubbleUpAux
    split
    · next hcond =>
      have hcond' := Bool.and_eq_true_iff.mp hcond
      have hi : i < h.heap.length := entLt_lt_length h i _ hcond'.2
      have hpar : parentIdx i < h.heap.length := by
        refine Nat.lt_of_le_of_lt ?_ hi
        unfold parentIdx
        exact Nat.le_trans (Nat.div_le_self _ _) (Nat.sub_le _ _)
      have hs := posBij_swap h i (parentIdx i) hi hpar hb
      have hv := heapInv_entSub (entSub_swap h i (parentIdx i)) hinv
      have h3 := ih (h.swapEntries i (parentIdx i)) (parentIdx i) hs hv
      exact ⟨h3.1, h3.2.1, by rw [h3.2.2, swapEntries_length]⟩
    · exact ⟨hb, hinv, rfl⟩

open BinaryHeap in
theorem bubbleUp_pres (st : DistState) (h : BinaryHeap) (i : Nat)
    (hb : PosBij h) (hinv : HeapInv st h) :
    PosBij (h.bubbleUp i) ∧ HeapInv st (h.bubbleUp i) ∧
    (h.bubbleUp i).heap.length = h.heap.length :=
  bubbleUpAux_pres st (i + 1) h i hb hinv

open BinaryHeap in
theorem smallestIdx_lt_of_ne (h : BinaryHeap) (i : Nat)
    (hne : smallestIdx h i ≠ i) : smallestIdx h i < h.size := by
  unfold smallestIdx at hne ⊢
  simp only [] at hne ⊢
  by_cases hc1 : (decide (2 * i + 1 < h.size) &&
      entLt (h.entAt (2 * i + 1)) (h.entAt i)) = true
  · rw [if_pos hc1] at hne ⊢
    by_cases hc2 : (decide (2 * i + 2 < h.size) &&
        entLt (h.entAt (2 * i + 2)) (h.entAt (2 * i + 1))) = true
    · rw [if_pos hc2]
      exact of_decide_eq_true (Bool.and_eq_true_iff.mp hc2).1
    · rw [if_neg hc2]
      exact of_decide_eq_true (Bool.and_eq_true_iff.mp hc1).1
  · rw [if_neg hc1] at hne ⊢
    by_cases hc2 : (decide (2 * i + 2 < h.size) &&
        entLt (h.entAt (2 * i + 2)) (h.entAt i)) = true
    · rw [if_pos hc2]
      exact of_decide_eq_true (Bool.and_eq_true_iff.mp hc2).1
    · rw [if_neg hc2] at hne
      exact absurd rfl hne

open BinaryHeap in
theorem bubbleDownAux_pres (st : DistState) :
    ∀ (fuel : Nat) (h : BinaryHeap) (i : Nat), i < h.heap.length → PosBij h →
      HeapInv st h →
      PosBij (bubbleDownAux fuel h i) ∧ HeapInv st (bubbleDownAux fuel h i) ∧
      (bubbleDownAux fuel h i).heap.length = h.heap.length := by
  intro fuel
  induction fuel with
  | zero => intro h i _ hb hinv; exact ⟨hb, hinv, rfl⟩
  | succ fuel ih =>
    intro h i hi hb hinv
    unfold bubbleDownAux
    simp only []
    split
    · exact ⟨hb, hinv, rfl⟩
    · next hne =>
      have hne' : smallestIdx h i ≠ i := by simpa using hne
      have hs : smallestIdx h i < h.size := smallestIdx_lt_of_ne h i hne'
      have hsb := posBij_swap h i (smallestIdx h i) hi hs hb
      have hsv := heapInv_entSub (entSub_swap h i (smallestIdx h i)) hinv
      have h3 := ih (h.swapEntries i (smallestIdx h i)) (smallestIdx h i)
        (by rw [swapEntries_length]; exact hs) hsb hsv
      exact ⟨h3.1, h3.2.1, by rw [h3.2.2, swapEntries_length]⟩

open BinaryHeap in
theorem decreaseKey_pres (st : DistState) (h : BinaryHeap) (v : Nat) (nd : EW)
    (hb : PosBij h) (hinv : HeapInv st h) (hd : st.get v ≤ nd) :
    PosBij (h.decreaseKey v nd) ∧ HeapInv st (h.decreaseKey v nd) ∧
    (h.decreaseKey v nd).heap.length = h.heap.length := by
  unfold decreaseKey
  split
  · exact ⟨hb, hinv, rfl⟩
  · next p hp =>
    split
    · next hps =>
      split
      · next hlt =>
        have hvert := (hb.2.2 v p hp).2
        have hplen : p < h.heap.length := (hb.2.2 v p hp).1
        have hset : (⟨h.heap.set p ⟨(h.entAt p).vertex, nd⟩, h.posMap⟩ :
            BinaryHeap).entAt p = ⟨(h.entAt p).vertex, nd⟩ := by
          unfold BinaryHeap.entAt
          exact getD_set_self _ _ _ _ hplen
        have hsetne : ∀ m, m ≠ p → (⟨h.heap.set p ⟨(h.entAt p).vertex, nd⟩,
            h.posMap⟩ : BinaryHeap).entAt m = h.entAt m := by
          intro m hm
          unfold BinaryHeap.entAt
          exact getD_set_ne _ _ _ _ _ (fun hc => hm hc.symm)
        have hb1 : PosBij ⟨h.heap.set p ⟨(h.entAt p).vertex, nd⟩, h.posMap⟩ := by
          obtain ⟨hnd, h1, h2⟩ := hb
          refine ⟨hnd, ?_, ?_⟩
          · intro m hm
            rw [List.length_set] at hm
            by_cases hmp : m = p
            · subst hmp
              rw [hset]
              exact h1 m hm
            · rw [hsetne m hmp]
              exact h1 m hm
          · intro w q hq
            have hold := h2 w q hq
            rw [List.length_set]
            refine ⟨hold.1, ?_⟩
            by_cases hqp : q = p
            · subst hqp
              rw [hset]
              exact hold.2
            · rw [hsetne q hqp]
              exact hold.2
        have hv1 : HeapInv st ⟨h.heap.set p ⟨(h.entAt p).vertex, nd⟩, h.posMap⟩ := by
          intro m
          by_cases hmp : m = p
          · subst hmp
            rw [hset]
            show st.get (h.entAt m).vertex ≤ nd
            rw [hvert]
            exact hd
          · rw [hsetne m hmp]
            exact hinv m
        have h3 := bubbleUp_pres st
          ⟨h.heap.set p ⟨(h.entAt p).vertex, nd⟩, h.posMap⟩ p hb1 hv1
        refine ⟨h3.1, h3.2.1, ?_⟩
        rw [h3.2.2]
        simp
      · exact ⟨hb, hinv, rfl⟩
    · exact ⟨hb, hinv, rfl⟩

open BinaryHeap in
theorem bubbleDown_pres (st : DistState) (h : BinaryHeap) (i : Nat)
    (hi : i < h.heap.length) (hb : PosBij h) (hinv : HeapInv st h) :
    PosBij (h.bubbleDown i) ∧ HeapInv st (h.bubbleDown i) ∧
    (h.bubbleDown i).heap.length = h.heap.length :=
  bubbleDownAux_pres st (h.size + 1) h i hi hb hinv

open BinaryHeap in
theorem insert_pres (st : DistState) (h : BinaryHeap) (v : Nat) (d : EW)
    (hb : PosBij h) (hinv : HeapInv st h) (hd : st.get v ≤ d) :
    PosBij (h.insert v d) ∧ HeapInv st (h.insert v d) := by
  have happend : ∀ (M : List (Nat × Nat)) (m : Nat),
      (⟨h.heap ++ [⟨v, d⟩], M⟩ : BinaryHeap).entAt m =
        if m < h.heap.length then h.entAt m
        else if m = h.heap.length then ⟨v, d⟩ else HeapEntry.default := by
    intro M m
    unfold BinaryHeap.entAt
    exact getD_append_cases _ _ _ _
  have hmain : posFind h.posMap v = none →
      PosBij ((⟨h.heap ++ [⟨v, d⟩], posSet h.posMap v h.size⟩ : BinaryHeap).bubbleUp
        ((⟨h.heap ++ [⟨v, d⟩], posSet h.posMap v h.size⟩ : BinaryHeap).size - 1)) ∧
      HeapInv st ((⟨h.heap ++ [⟨v, d⟩], posSet h.posMap v h.size⟩ : BinaryHeap).bubbleUp
        ((⟨h.heap ++ [⟨v, d⟩], posSet h.posMap v h.size⟩ : BinaryHeap).size - 1)) := by
    intro hnone
    obtain ⟨hnd, h1, h2⟩ := hb
    have hb1 : PosBij ⟨h.heap ++ [⟨v, d⟩], posSet h.posMap v h.size⟩ := by
      refine ⟨keys_posSet_nodup _ _ _ hnd, ?_, ?_⟩
      · intro m hm
        rw [show (⟨h.heap ++ [⟨v, d⟩], posSet h.posMap v h.size⟩ :
            BinaryHeap).heap.length = h.heap.length + 1 from by simp] at hm
        rw [happend]
        by_cases hlt : m < h.heap.length
        · rw [if_pos hlt]
          have hw := h1 m hlt
          have hwv : (h.entAt m).vertex ≠ v := by
            intro hc
            rw [hc, hnone] at hw
            exact Option.noConfusion hw
          show posFind (posSet h.posMap v h.size) (h.entAt m).vertex = some m
          rw [posFind_posSet_ne _ _ _ _ hwv]
          exact hw
        · have hmeq : m = h.heap.length := by omega
          rw [if_neg hlt, if_pos hmeq]
          show posFind (posSet h.posMap v h.size) v = some m
          rw [posFind_posSet_self, hmeq]
          rfl
      · intro w q hq
        rw [show (⟨h.heap ++ [⟨v, d⟩], posSet h.posMap v h.size⟩ :
            BinaryHeap).heap.length = h.heap.length + 1 from by simp]
        by_cases hwv : w = v
        · subst hwv
          rw [show posFind (posSet h.posMap w h.size) w = some h.size from
            posFind_posSet_self _ _ _] at hq
          cases Option.some.inj hq
          refine ⟨by simp [BinaryHeap.size], ?_⟩
          rw [happend]
          rw [if_neg (show ¬ h.size < h.heap.length from fun hc => Nat.lt_irrefl _ hc),
            if_pos (show h.size = h.heap.length from rfl)]
        · rw [show posFind (posSet h.posMap v h.size) w = posFind h.posMap w from
            posFind_posSet_ne _ _ _ _ hwv] at hq
          have hold := h2 w q hq
          refine ⟨Nat.lt_succ_of_lt hold.1, ?_⟩
          rw [happend, if_pos hold.1]
          exact hold.2
    have hv1 : HeapInv st ⟨h.heap ++ [⟨v, d⟩], posSet h.posMap v h.size⟩ := by
      intro m
      rw [happend]
      by_cases hlt : m < h.heap.length
      · rw [if_pos hlt]
        exact hinv m
      · by_cases hmeq : m = h.heap.length
        · rw [if_neg hlt, if_pos hmeq]
          exact hd
        · rw [if_neg hlt, if_neg hmeq]
          exact le_top
    have h3 := bubbleUp_pres st ⟨h.heap ++ [⟨v, d⟩], posSet h.posMap v h.size⟩
      ((⟨h.heap ++ [⟨v, d⟩], posSet h.posMap v h.size⟩ : BinaryHeap).size - 1)
      hb1 hv1
    exact ⟨h3.1, h3.2.1⟩
  unfold BinaryHeap.insert
  split
  · next p hp =>
    split
    · split
      · next hlt =>
        have h3 := decreaseKey_pres st h v d hb hinv hd
        exact ⟨h3.1, h3.2.1⟩
      · exact ⟨hb, hinv⟩
    · next hps =>
      exact absurd (hb.2.2 v p hp).1 hps
  · next hnone =>
    exact hmain hnone

open BinaryHeap in
theorem extractMin_pres (st : DistState) (h : BinaryHeap) (u : Nat) (du : EW)
    (h' : BinaryHeap) (hb : PosBij h) (hinv : HeapInv st h)
    (hex : h.extractMin = some ((u, du), h')) :
    st.get u ≤ du ∧ PosBij h' ∧ HeapInv st h' := by
  unfold extractMin at hex
  split at hex
  · exact absurd hex (by simp)
  · next hsz =>
    simp only [] at hex
    have hlenpos : 0 < h.heap.length := Nat.pos_of_ne_zero hsz
    injection hex with hpair
    injection hpair with hud hh'
    injection hud with hu hdu
    obtain ⟨hnd, h1, h2⟩ := hb
    have hEnt : ∀ j, j < h.heap.length - 1 →
        (⟨(h.heap.set 0 (h.entAt (h.size - 1))).dropLast,
          posErase (posSet h.posMap (h.entAt (h.size - 1)).vertex 0)
            (h.entAt 0).vertex⟩ : BinaryHeap).entAt j =
          if j = 0 then h.entAt (h.size - 1) else h.entAt j := by
      intro j hj
      unfold BinaryHeap.entAt
      rw [getD_dropLast _ _ _ (by simpa using hj)]
      by_cases hj0 : j = 0
      · subst hj0
        rw [if_pos rfl]
        exact getD_set_self _ _ _ _ hlenpos
      · rw [if_neg hj0]
        exact getD_set_ne _ _ _ _ _ (fun hc => hj0 hc.symm)
    have hlen1 : (⟨(h.heap.set 0 (h.entAt (h.size - 1))).dropLast,
        posErase (posSet h.posMap (h.entAt (h.size - 1)).vertex 0)
          (h.entAt 0).vertex⟩ : BinaryHeap).heap.length = h.heap.length - 1 := by
      simp
    have hsize_eq : h.size = h.heap.length := rfl
    have hvv2 : 2 ≤ h.heap.length →
        (h.entAt (h.size - 1)).vertex ≠ (h.entAt 0).vertex := by
      intro h2len hc
      have e1 := h1 (h.size - 1) (Nat.sub_lt hlenpos Nat.one_pos)
      have e0 := h1 0 hlenpos
      rw [hc] at e1
      rw [e0] at e1
      have h01 : (0 : Nat) = h.size - 1 := Option.some.inj e1
      rw [hsize_eq] at h01
      omega
    have hbij1 : PosBij ⟨(h.heap.set 0 (h.entAt (h.size - 1))).dropLast,
        posErase (posSet h.posMap (h.entAt (h.size - 1)).vertex 0)
          (h.entAt 0).vertex⟩ := by
      refine ⟨?_, ?_, ?_⟩
      · exact ((posErase_sublist _ _).map Prod.fst).nodup
          (keys_posSet_nodup _ _ _ hnd)
      · intro m hm
        rw [hlen1] at hm
        rw [hEnt m hm]
        by_cases hm0 : m = 0
        · subst hm0
          have h2len : 2 ≤ h.heap.length := by omega
          rw [if_pos rfl,
            posFind_posErase_ne _ _ _ (hvv2 h2len),
            posFind_posSet_self]
        · rw [if_neg hm0]
          have hw := h1 m (by omega)
          have hwmn : (h.entAt m).vertex ≠ (h.entAt 0).vertex := by
            intro hc
            rw [hc, h1 0 hlenpos] at hw
            exact hm0 (Option.some.inj hw).symm
          have hwlst : (h.entAt m).vertex ≠ (h.entAt (h.size - 1)).vertex := by
            intro hc
            rw [hc, h1 (h.size - 1) (Nat.sub_lt hlenpos Nat.one_pos)] at hw
            have hm1 := (Option.some.inj hw).symm
            rw [hsize_eq] at hm1
            omega
          rw [posFind_posErase_ne _ _ _ hwmn,
            posFind_posSet_ne _ _ _ _ hwlst]
          exact hw
      · intro w q hq
        rw [hlen1]
        by_cases hwmn : w = (h.entAt 0).vertex
        · subst hwmn
          rw [posFind_posErase_self _ _ (keys_posSet_nodup _ _ _ hnd)] at hq
          exact absurd hq (by simp)
        · by_cases hwlst : w = (h.entAt (h.size - 1)).vertex
          · subst hwlst
            rw [posFind_posErase_ne _ _ _ hwmn, posFind_posSet_self] at hq
            cases Option.some.inj hq
            have h2len : 2 ≤ h.heap.length := by
              by_contra hc
              have : h.heap.length = 1 := by omega
              refine hwmn ?_
              show (h.entAt (h.size - 1)).vertex = (h.entAt 0).vertex
              have : h.size - 1 = 0 := by
                show h.heap.length - 1 = 0
                omega
              rw [this]
            refine ⟨by omega, ?_⟩
            rw [hEnt 0 (by omega), if_pos rfl]
          · rw [posFind_posErase_ne _ _ _ hwmn,
              posFind_posSet_ne _ _ _ _ hwlst] at hq
            have hold := h2 w q hq
            have hq0 : q ≠ 0 := by
              intro hc
              rw [hc] at hold
              exact hwmn hold.2.symm
            have hqlst : q ≠ h.size - 1 := by
              intro hc
              rw [hc] at hold
              exact hwlst hold.2.symm
            have hqlt : q < h.heap.length - 1 := by
              have hq1 := hold.1
              rw [hsize_eq] at hqlst
              omega
            refine ⟨hqlt, ?_⟩
            rw [hEnt q hqlt, if_neg hq0]
            exact hold.2
    have hinv1 : HeapInv st ⟨(h.heap.set 0 (h.entAt (h.size - 1))).dropLast,
        posErase (posSet h.posMap (h.entAt (h.size - 1)).vertex 0)
          (h.entAt 0).vertex⟩ := by
      refine heapInv_entSub ?_ hinv
      intro m
      by_cases hm : m < h.heap.length - 1
      · rw [hEnt m hm]
        by_cases hm0 : m = 0
        · rw [if_pos hm0]
          exact Or.inr ⟨h.size - 1, rfl⟩
        · rw [if_neg hm0]
          exact Or.inr ⟨m, rfl⟩
      · refine Or.inl (entAt_oob _ m ?_)
        rw [hlen1]
        omega
    refine ⟨?_, ?_, ?_⟩
    · rw [← hu, ← hdu]
      exact hinv 0
    · rw [← hh']
      split
      · next hpos =>
        exact (bubbleDown_pres st _ 0 hpos hbij1 hinv1).1
      · exact hbij1
    · rw [← hh']
      split
      · next hpos =>
        exact (bubbleDown_pres st _ 0 hpos hbij1 hinv1).2.1
      · exact hinv1

/-! ## BaseCase bound and size (towards C6) -/

/-- Pointwise-lower states keep satisfying the heap invariant. -/
theorem heapInv_distLe {st' st : DistState} {h : BinaryHeap}
    (hle : DistLe st' st) (hinv : HeapInv st h) : HeapInv st' h :=
  fun j => le_trans (hle _) (hinv j)

/-- An in-range `set` stores the written value. -/
theorem get_set_self (st : DistState) (v : Nat) (w : EW)
    (h : v < st.dist.length) : (st.set v w).get v = w := by
  unfold DistState.set DistState.get
  exact getD_set_self _ _ _ _ h

open BinaryHeap in
/-- The heap `BaseCase::run` builds before its loop is a singleton. -/
theorem insert_empty (x : Nat) (d : EW) :
    BinaryHeap.empty.insert x d = ⟨[⟨x, d⟩], [(x, 0)]⟩ := rfl

open BinaryHeap in
/-- The singleton heap's position map is coherent. -/
theorem posBij_single (x : Nat) (d : EW) :
    PosBij ⟨[⟨x, d⟩], [(x, 0)]⟩ := by
  refine ⟨by simp, ?_, ?_⟩
  · intro j hj
    have hj0 : j = 0 := by simpa using hj
    subst hj0
    show posFind [(x, 0)] x = some 0
    rw [posFind_cons]
    simp
  · intro v p hp
    rw [posFind_cons] at hp
    by_cases hv : x = v
    · rw [if_pos hv] at hp
      cases Option.some.inj hp
      exact ⟨by simp, hv⟩
    · rw [if_neg hv] at hp
      exact Option.noConfusion hp

open BinaryHeap in
/-- The singleton heap keyed by the current estimate satisfies the heap
invariant. -/
theorem heapInv_single (st : DistState) (x : Nat) :
    HeapInv st ⟨[⟨x, st.get x⟩], [(x, 0)]⟩ := by
  intro j
  match j with
  | 0 => exact le_refl _
  | j + 1 => exact le_top

/-- One BaseCase edge relaxation preserves the heap invariants, only
lowers estimates, and keeps the length of the distance array. -/
theorem baseRelaxEdge_pres (B : EW) (u : Nat) (du : EW)
    (acc : DistState × BinaryHeap) (e : Edge)
    (hlen : e.dst < acc.1.dist.length)
    (hb : PosBij acc.2) (hinv : HeapInv acc.1 acc.2) :
    PosBij (baseRelaxEdge B u du acc e).2 ∧
    HeapInv (baseRelaxEdge B u du acc e).1 (baseRelaxEdge B u du acc e).2 ∧
    DistLe (baseRelaxEdge B u du acc e).1 acc.1 ∧
    (baseRelaxEdge B u du acc e).1.dist.length = acc.1.dist.length := by
  unfold baseRelaxEdge
  simp only []
  by_cases h1 : du + (e.w : ℚ) ≤ B ∧ du + (e.w : ℚ) ≤ acc.1.get e.dst
  · rw [if_pos h1]
    by_cases h2 : du + (e.w : ℚ) < acc.1.get e.dst ∨
        du + (e.w : ℚ) = acc.1.get e.dst
    · rw [if_pos h2]
      by_cases h3 : du + (e.w : ℚ) < acc.1.get e.dst
      · rw [if_pos h3]
        have hle2 : DistLe ((acc.1.set e.dst (du + (e.w : ℚ))).setPred e.dst u)
            acc.1 :=
          distLe_trans (distLe_setPred _ _ _) (distLe_set _ _ _ (le_of_lt h3))
        have hinv2 : HeapInv ((acc.1.set e.dst (du + (e.w : ℚ))).setPred e.dst u)
            acc.2 := heapInv_distLe hle2 hinv
        have hgv : ((acc.1.set e.dst (du + (e.w : ℚ))).setPred e.dst u).get e.dst
            = du + (e.w : ℚ) := by
          rw [get_setPred]
          exact get_set_self _ _ _ hlen
        have hp := insert_pres
          ((acc.1.set e.dst (du + (e.w : ℚ))).setPred e.dst u)
          acc.2 e.dst (du + (e.w : ℚ)) hb hinv2 (le_of_eq hgv)
        refine ⟨hp.1, hp.2, hle2, ?_⟩
        show ((acc.1.set e.dst (du + (e.w : ℚ))).setPred e.dst u).dist.length = _
        simp [DistState.set, DistState.setPred]
      · rw [if_neg h3]
        have halt : du + (e.w : ℚ) = acc.1.get e.dst := h2.resolve_left h3
        have hinv2 : HeapInv (acc.1.setPred e.dst u) acc.2 :=
          heapInv_distLe (distLe_setPred _ _ _) hinv
        have hp := insert_pres (acc.1.setPred e.dst u) acc.2 e.dst
          (du + (e.w : ℚ)) hb hinv2
          (by rw [get_setPred]; exact le_of_eq halt.symm)
        exact ⟨hp.1, hp.2, distLe_setPred _ _ _, rfl⟩
    · rw [if_neg h2]
      exact ⟨hb, hinv, distLe_refl _, rfl⟩
  · rw [if_neg h1]
    exact ⟨hb, hinv, distLe_refl _, rfl⟩

/-- Fold form of `baseRelaxEdge_pres` over an edge list. -/
theorem baseRelaxFold_pres (B : EW) (u : Nat) (du : EW) (es : List Edge)
    (acc : DistState × BinaryHeap)
    (hlen : ∀ e ∈ es, e.dst < acc.1.dist.length)
    (hb : PosBij acc.2) (hinv : HeapInv acc.1 acc.2) :
    PosBij (es.foldl (baseRelaxEdge B u du) acc).2 ∧
    HeapInv (es.foldl (baseRelaxEdge B u du) acc).1
      (es.foldl (baseRelaxEdge B u du) acc).2 ∧
    DistLe (es.foldl (baseRelaxEdge B u du) acc).1 acc.1 ∧
    (es.foldl (baseRelaxEdge B u du) acc).1.dist.length = acc.1.dist.length := by
  induction es generalizing acc with
  | nil => exact ⟨hb, hinv, distLe_refl _, rfl⟩
  | cons e es ih =>
    have h1 := baseRelaxEdge_pres B u du acc e (hlen e (by simp)) hb hinv
    have h2 := ih (baseRelaxEdge B u du acc e)
      (fun e' he' => by
        rw [h1.2.2.2]
        exact hlen e' (List.mem_cons_of_mem _ he'))
      h1.1 h1.2.1
    rw [List.foldl_cons]
    exact ⟨h2.1, h2.2.1, distLe_trans h2.2.2.1 h1.2.2.1,
      by rw [h2.2.2.2, h1.2.2.2]⟩

/-- BaseCase's extraction loop keeps `|U| ≤ k+1`, and every vertex of
the final `U` has a final estimate strictly below `B`. -/
theorem baseCaseLoop_inv (G : Graph) (B : EW) (k N : Nat)
    (hG : ∀ e ∈ G.edges, e.dst < N) :
    ∀ (fuel : Nat) (H : BinaryHeap) (st : DistState) (U : List Nat) out,
      PosBij H → HeapInv st H → st.dist.length = N →
      U.length ≤ k + 1 → (∀ u ∈ U, st.get u < B) →
      baseCaseLoop G B k fuel H st U = some out →
      out.2.length ≤ k + 1 ∧ (∀ u ∈ out.2, out.1.get u < B) := by
  intro fuel
  induction fuel with
  | zero =>
    intro H st U out _ _ _ _ _ hout
    exact absurd hout (by simp [baseCaseLoop])
  | succ fuel ih =>
    intro H st U out hbj hinv hN hU hUB hout
    unfold baseCaseLoop at hout
    split at hout
    · cases hout; exact ⟨hU, hUB⟩
    · next hcond =>
      split at hout
      · cases hout; exact ⟨hU, hUB⟩
      · next u du H1 heq =>
        split at hout
        · cases hout; exact ⟨hU, hUB⟩
        · next hBdu =>
          have hUk : U.length ≤ k := by
            rcases not_or.mp hcond with ⟨_, h2⟩
            omega
          have hduB : du < B := not_le.mp hBdu
          have hex := extractMin_pres st H u du H1 hbj hinv heq
          have hfold := baseRelaxFold_pres B u du (G.outgoing u) (st, H1)
            (fun e he => by
              show e.dst < st.dist.length
              rw [hN]
              exact hG e (List.mem_of_mem_filter he))
            hex.2.1 hex.2.2
          have hU' : (if u ∈ U then U else U ++ [u]).length ≤ k + 1 := by
            by_cases hm : u ∈ U
            · rw [if_pos hm]; exact hU
            · rw [if_neg hm]
              simp only [List.length_append, List.length_singleton]
              omega
          have hUB' : ∀ w ∈ (if u ∈ U then U else U ++ [u]),
              ((G.outgoing u).foldl (baseRelaxEdge B u du) (st, H1)).1.get w
                < B := by
            intro w hw
            have hle := hfold.2.2.1 w
            by_cases hm : u ∈ U
            · rw [if_pos hm] at hw
              exact lt_of_le_of_lt hle (hUB w hw)
            · rw [if_neg hm] at hw
              rcases List.mem_append.mp hw with hw1 | hw1
              · exact lt_of_le_of_lt hle (hUB w hw1)
              · have hwu : w = u := by simpa using hw1
                subst hwu
                exact lt_of_le_of_lt hle (lt_of_le_of_lt hex.1 hduB)
          exact ih _ _ _ out hfold.1 hfold.2.1 (hfold.2.2.2.trans hN)
            hU' hUB' hout

/-- A nonempty list's `getLast?` yields a member. -/
theorem getLast?_mem_of_ne_nil : ∀ (l : List Nat), l ≠ [] →
    ∃ a, l.getLast? = some a ∧ a ∈ l
  | [], h => absurd rfl h
  | [a], _ => ⟨a, rfl, by simp⟩
  | a :: b :: t, _ => by
    obtain ⟨c, hc, hm⟩ := getLast?_mem_of_ne_nil (b :: t) (by simp)
    exact ⟨c, by rw [List.getLast?_cons_cons]; exact hc,
      List.mem_cons_of_mem _ hm⟩

/-- C6.  `BaseCase::run(G, B, x, state, k)` on a graph containing `x`
returns `(B', U)` with `B' ≤ B` and `|U| ≤ k+1`; when the loop stopped
with `|U|` at `k+1` the bound `B'` is the current `d̂` value of the last
vertex added to `U`, and otherwise `B' = B`.  The hypothesis that every
edge head is in range of the distance array reflects the unchecked
`std::vector` accesses `dist[id]` of the C++ (out of range they are
undefined behaviour). -/
theorem baseCase_bound_and_size (G : Graph) (B : EW) (x : Nat)
    (st : DistState) (k fuel : Nat) (r : BaseCaseResult)
    (hx : G.hasVertex x)
    (hwf : ∀ e ∈ G.edges, e.dst < st.dist.length)
    (hr : BaseCase.run G B x st k fuel = some r) :
    r.B_prime ≤ B ∧ r.U.length ≤ k + 1 ∧
    (k + 1 ≤ r.U.length →
      ∃ ul, r.U.getLast? = some ul ∧ r.B_prime = r.state.get ul) ∧
    (r.U.length < k + 1 → r.B_prime = B) := by
  unfold BaseCase.run at hr
  split at hr
  · next hnx => exact absurd hx hnx
  · next hhas =>
    simp only [] at hr
    split at hr
    · exact Option.noConfusion hr
    · next st1 U heq =>
      set st0 : DistState := if st.get x = ⊤ then st.set x 0 else st
        with hst0def
      have hlen0 : st0.dist.length = st.dist.length := by
        rw [hst0def]
        split
        · show (st.set x 0).dist.length = st.dist.length
          simp [DistState.set]
        · rfl
      have hb0 : PosBij (BinaryHeap.empty.insert x (st0.get x)) := by
        rw [insert_empty]
        exact posBij_single _ _
      have hi0 : HeapInv st0 (BinaryHeap.empty.insert x (st0.get x)) := by
        rw [insert_empty]
        exact heapInv_single st0 x
      have hloop := baseCaseLoop_inv G B k st.dist.length hwf fuel
        (BinaryHeap.empty.insert x (st0.get x)) st0 [] (st1, U)
        hb0 hi0 hlen0 (by simp) (fun w hw => absurd hw (List.not_mem_nil w))
        heq
      have hU1 : U.length ≤ k + 1 := hloop.1
      have hUB1 : ∀ w ∈ U, st1.get w < B := hloop.2
      have hrq : r = ⟨(if k + 1 ≤ U.length then
          match U.getLast? with
          | some ul => st1.get ul
          | none => B
        else B), U, st1⟩ := (Option.some.inj hr).symm
      subst hrq
      by_cases hk : k + 1 ≤ U.length
      · have hUne : U ≠ [] := by
          intro hc
          rw [hc] at hk
          simp only [List.length_nil] at hk
          omega
        obtain ⟨ul, hul, hmem⟩ := getLast?_mem_of_ne_nil U hUne
        have hltB := hUB1 ul hmem
        refine ⟨?_, hU1, ?_, ?_⟩
        · show (if k + 1 ≤ U.length then
              match U.getLast? with
              | some ul => st1.get ul
              | none => B
            else B) ≤ B
          rw [if_pos hk, hul]
          exact le_of_lt hltB
        · intro _
          refine ⟨ul, hul, ?_⟩
          show (if k + 1 ≤ U.length then
              match U.getLast? with
              | some ul => st1.get ul
              | none => B
            else B) = st1.get ul
          rw [if_pos hk, hul]
        · intro hlt4
          exact absurd hk (Nat.not_le.mpr hlt4)
      · refine ⟨?_, hU1, ?_, ?_⟩
        · show (if k + 1 ≤ U.length then
              match U.getLast? with
              | some ul => st1.get ul
              | none => B
            else B) ≤ B
          rw [if_neg hk]
        · intro h3
          exact absurd h3 hk
        · intro _
          show (if k + 1 ≤ U.length then
              match U.getLast? with
              | some ul => st1.get ul
              | none => B
            else B) = B
          rw [if_neg hk]

/-- Closed witness for `baseCase_bound_and_size`: the single-vertex
graph, `B = 5`, `k = 0`. -/
theorem baseCase_bound_and_size_witness :
    (0 : EW) ≤ ((5 : ℚ) : EW) ∧ [0].length ≤ 0 + 1 ∧
    (0 + 1 ≤ [0].length →
      ∃ ul, [0].getLast? = some ul ∧
        (0 : EW) = ((DistState.init 1).set 0 0).get ul) ∧
    ([0].length < 0 + 1 → (0 : EW) = ((5 : ℚ) : EW)) :=
  baseCase_bound_and_size (Graph.empty.addVertex 0) ((5 : ℚ) : EW) 0
    (DistState.init 1) 0 9 ⟨0, [0], (DistState.init 1).set 0 0⟩
    (by decide)
    (fun e he => absurd he (List.not_mem_nil e))
    (by decide)

end SSSP
